import Mathlib

/-!
Verification development for the SortSense reorganization engine
(`sortsense/engine.py`, `sortsense/utils.py`, `sortsense/categorizer.py`,
`sortsense/config.py`).

The filesystem is modelled shallowly: a path is its list of components, a
filesystem state is a finite association list of item paths (plain files, and
folders that are moved atomically, such as app bundles and cohesive folders)
together with a list of directory paths created by `os.makedirs` or already
present.  Python dictionaries are modelled as association lists in insertion
order, Python floats by rationals (all confidence arithmetic in the engine is
on small fractions such as 0.8 and k/5, where IEEE doubles behave exactly like
the rationals they round to), and `datetime` timestamps are omitted from
ledger entries because the engine never reads them back.
-/

/-- A filesystem path, as its list of components (`os.path.join` appends a
component, `os.path.basename` takes the last component). -/
abbrev FPath := List String

/-- `pathLE r p` holds when `r` is an ancestor-or-equal of `p`, i.e. the
component list `r` is an initial segment of `p`. -/
def pathLE : FPath → FPath → Bool
  | [], _ => true
  | _ :: _, [] => false
  | a :: as, b :: bs => a == b && pathLE as bs

theorem pathLE_iff (r p : FPath) : pathLE r p = true ↔ ∃ q, p = r ++ q := by
  induction r generalizing p with
  | nil => simp [pathLE]
  | cons a as ih =>
    cases p with
    | nil => simp [pathLE]
    | cons b bs =>
      simp only [pathLE, Bool.and_eq_true, beq_iff_eq, ih]
      constructor
      · rintro ⟨rfl, q, rfl⟩; exact ⟨q, rfl⟩
      · rintro ⟨q, hq⟩
        injection hq with h1 h2
        exact ⟨h1.symm, q, h2⟩

theorem pathLE_refl (p : FPath) : pathLE p p = true := by
  rw [pathLE_iff]; exact ⟨[], by simp⟩

theorem pathLE_append (r q : FPath) : pathLE r (r ++ q) = true := by
  rw [pathLE_iff]; exact ⟨q, rfl⟩

theorem pathLE_trans {a b c : FPath} (h1 : pathLE a b = true) (h2 : pathLE b c = true) :
    pathLE a c = true := by
  rw [pathLE_iff] at *
  obtain ⟨q1, rfl⟩ := h1
  obtain ⟨q2, rfl⟩ := h2
  exact ⟨q1 ++ q2, by simp⟩

theorem pathLE_total_of_le {a b c : FPath} (h1 : pathLE a c = true) (h2 : pathLE b c = true) :
    pathLE a b = true ∨ pathLE b a = true := by
  induction a generalizing b c with
  | nil => left; rfl
  | cons x xs ih =>
    cases b with
    | nil => right; rfl
    | cons y ys =>
      cases c with
      | nil => simp [pathLE] at h1
      | cons z zs =>
        simp only [pathLE, Bool.and_eq_true, beq_iff_eq] at h1 h2
        rcases ih h1.2 h2.2 with h | h
        · left; simp [pathLE, h1.1.trans h2.1.symm, h]
        · right; simp [pathLE, h2.1.trans h1.1.symm, h]

/-- An abstract file identity stored at an item path. -/
abbrev Item := Nat

/-- First-match association-list lookup, modelling a Python `dict` access. -/
def alookup {α β : Type} [DecidableEq α] : List (α × β) → α → Option β
  | [], _ => none
  | q :: l, a => if q.1 = a then some q.2 else alookup l a

theorem alookup_filter_ne {α β : Type} [DecidableEq α] (l : List (α × β)) (p q : α) :
    alookup (l.filter (fun r => !(decide (r.1 = p)))) q = if q = p then none else alookup l q := by
  induction l with
  | nil => simp [alookup]
  | cons a l ih =>
    by_cases hap : a.1 = p
    · have : (!(decide (a.1 = p))) = false := by simp [hap]
      rw [List.filter_cons, this]
      simp only [if_neg (by simp : ¬ false = true)] at *
      rw [ih]
      by_cases hqp : q = p
      · simp [hqp]
      · have : a.1 ≠ q := fun h => hqp (by rw [← h, hap])
        simp [hqp, alookup, this]
    · have : (!(decide (a.1 = p))) = true := by simp [hap]
      rw [List.filter_cons, this]
      simp only [if_pos trivial]
      by_cases haq : a.1 = q
      · have hqp : ¬ q = p := fun h => hap (haq.trans h)
        simp [alookup, haq, hqp]
      · simp only [alookup, if_neg haq]
        exact ih

theorem alookup_isSome_of_mem {α β : Type} [DecidableEq α] {l : List (α × β)} {x : α × β}
    (hx : x ∈ l) : (alookup l x.1).isSome = true := by
  induction l with
  | nil => cases hx
  | cons a l ih =>
    cases hx with
    | head => simp [alookup]
    | tail _ hx =>
      by_cases h : a.1 = x.1
      · simp [alookup, h]
      · simp only [alookup, if_neg h]
        exact ih hx

theorem alookup_mem {α β : Type} [DecidableEq α] {l : List (α × β)} {a : α} {b : β}
    (h : alookup l a = some b) : (a, b) ∈ l := by
  induction l with
  | nil => simp [alookup] at h
  | cons x l ih =>
    obtain ⟨xa, xb⟩ := x
    by_cases hx : xa = a
    · simp only [alookup, if_pos hx] at h
      cases h
      subst hx
      exact List.mem_cons_self _ _
    · simp only [alookup] at h
      rw [if_neg hx] at h
      exact List.mem_cons_of_mem _ (ih h)

/-- `str.lower()` (ASCII case folding, which covers every name the engine
compares). -/
def lowerStr (s : String) : String := ⟨s.data.map Char.toLower⟩

/-- `name.startswith('.')`. -/
def startsDot (s : String) : Bool :=
  match s.data with
  | [] => false
  | c :: _ => c = '.'

/-- Split a character list at '/' separators. -/
def splitSlash : List Char → List (List Char)
  | [] => [[]]
  | c :: rest =>
    match splitSlash rest with
    | [] => [[]]
    | g :: gs => if c = '/' then [] :: g :: gs else (c :: g) :: gs

/-- A configured folder string (possibly nested, e.g. `"personal/housing"`)
as the path components `os.path.join` appends under the destination. -/
def strToPath (s : String) : FPath := (splitSlash s.data).map (fun g => String.mk g)

/-- Filesystem state: `items` maps item paths (files, and folders that move as
atomic units) to their identities; `dirs` lists the directory paths that exist
as directories (pre-existing or created by `os.makedirs`). -/
structure FS where
  items : List (FPath × Item)
  dirs : List FPath
deriving DecidableEq, Repr

/-- `os.path.exists`: an item or a directory is at the path. -/
def FS.pexists (fs : FS) (p : FPath) : Bool :=
  (alookup fs.items p).isSome || fs.dirs.contains p

/-- Remove the item at path `p` (the source side of `shutil.move`). -/
def FS.eraseItem (fs : FS) (p : FPath) : FS :=
  { fs with items := fs.items.filter (fun q => !(decide (q.1 = p))) }

/-- Place item `v` at path `p`, replacing any existing item there
(POSIX `os.rename` silently replaces an existing file). -/
def FS.putItem (fs : FS) (p : FPath) (v : Item) : FS :=
  { fs with items := (p, v) :: fs.items.filter (fun q => !(decide (q.1 = p))) }

theorem eraseItem_lookup (fs : FS) (p q : FPath) :
    alookup (fs.eraseItem p).items q = if q = p then none else alookup fs.items q := by
  simp only [FS.eraseItem]
  exact alookup_filter_ne fs.items p q

theorem putItem_lookup (fs : FS) (p : FPath) (v : Item) (q : FPath) :
    alookup (fs.putItem p v).items q = if q = p then some v else alookup fs.items q := by
  simp only [FS.putItem, alookup]
  by_cases h : q = p
  · simp [h]
  · have : ¬ p = q := fun hh => h hh.symm
    rw [if_neg this, if_neg h, alookup_filter_ne, if_neg h]

theorem eraseItem_dirs (fs : FS) (p : FPath) : (fs.eraseItem p).dirs = fs.dirs := rfl

theorem putItem_dirs (fs : FS) (p : FPath) (v : Item) : (fs.putItem p v).dirs = fs.dirs := rfl

theorem mem_eraseItem_items {fs : FS} {p : FPath} {x : FPath × Item}
    (hx : x ∈ (fs.eraseItem p).items) : x ∈ fs.items ∧ x.1 ≠ p := by
  simp only [FS.eraseItem, List.mem_filter, Bool.not_eq_eq_eq_not, Bool.not_true,
    decide_eq_false_iff_not, ne_eq] at hx
  exact ⟨hx.1, hx.2⟩

theorem mem_putItem_items {fs : FS} {p : FPath} {v : Item} {x : FPath × Item}
    (hx : x ∈ (fs.putItem p v).items) : x = (p, v) ∨ (x ∈ fs.items ∧ x.1 ≠ p) := by
  simp only [FS.putItem, List.mem_cons] at hx
  rcases hx with rfl | hx
  · left; rfl
  · right
    simp only [List.mem_filter, Bool.not_eq_eq_eq_not, Bool.not_true,
      decide_eq_false_iff_not, ne_eq] at hx
    exact ⟨hx.1, hx.2⟩

/-- `os.makedirs(joined path, exist_ok=True)`: walk down the component chain,
creating each missing directory level; fail (Python raises, the caller's
`try` catches) as soon as some level is occupied by a non-directory. -/
def mkdirsAux (fs : FS) (done : FPath) (rest : List String) : FS × Bool :=
  match rest with
  | [] => (fs, true)
  | c :: cs =>
    if (alookup fs.items (done ++ [c])).isSome then (fs, false)
    else if fs.dirs.contains (done ++ [c]) then mkdirsAux fs (done ++ [c]) cs
    else mkdirsAux { fs with dirs := (done ++ [c]) :: fs.dirs } (done ++ [c]) cs

def makedirs (fs : FS) (p : FPath) : FS × Bool := mkdirsAux fs [] p

theorem mkdirsAux_items (fs : FS) (done : FPath) (rest : List String) :
    (mkdirsAux fs done rest).1.items = fs.items := by
  induction rest generalizing fs done with
  | nil => rfl
  | cons c cs ih =>
    simp only [mkdirsAux]
    split
    · rfl
    · split
      · exact ih _ _
      · exact ih _ _

theorem makedirs_items (fs : FS) (p : FPath) : (makedirs fs p).1.items = fs.items :=
  mkdirsAux_items fs [] p

theorem mkdirsAux_dirs_mem (fs : FS) (done : FPath) (rest : List String) {d : FPath}
    (hd : d ∈ (mkdirsAux fs done rest).1.dirs) :
    d ∈ fs.dirs ∨ (pathLE done d = true ∧ pathLE d (done ++ rest) = true ∧ d ≠ done) := by
  induction rest generalizing fs done with
  | nil => exact Or.inl hd
  | cons c cs ih =>
    simp only [mkdirsAux] at hd
    by_cases hocc : (alookup fs.items (done ++ [c])).isSome = true
    · rw [if_pos hocc] at hd
      exact Or.inl hd
    · rw [if_neg hocc] at hd
      by_cases hmem : fs.dirs.contains (done ++ [c]) = true
      · rw [if_pos hmem] at hd
        rcases ih fs (done ++ [c]) hd with h | ⟨h1, h2, h3⟩
        · exact Or.inl h
        · refine Or.inr ⟨?_, ?_, ?_⟩
          · exact pathLE_trans (pathLE_append done [c]) h1
          · simpa using h2
          · intro hde
            subst hde
            rw [pathLE_iff] at h1
            obtain ⟨q, hq⟩ := h1
            have hlen := congrArg List.length hq
            simp only [List.length_append, List.length_cons, List.length_nil] at hlen
            omega
      · rw [if_neg hmem] at hd
        rcases ih _ (done ++ [c]) hd with h | ⟨h1, h2, h3⟩
        · rcases List.mem_cons.mp h with rfl | h
          · refine Or.inr ⟨pathLE_append done [c], ?_, ?_⟩
            · have : done ++ [c] ++ cs = done ++ (c :: cs) := by simp
              rw [← this]
              exact pathLE_append _ _
            · intro hde
              have := congrArg List.length hde
              simp [List.length_append] at this
          · exact Or.inl h
        · refine Or.inr ⟨?_, ?_, ?_⟩
          · exact pathLE_trans (pathLE_append done [c]) h1
          · simpa using h2
          · intro hde
            subst hde
            rw [pathLE_iff] at h1
            obtain ⟨q, hq⟩ := h1
            have hlen := congrArg List.length hq
            simp only [List.length_append, List.length_cons, List.length_nil] at hlen
            omega

theorem makedirs_dirs_mem (fs : FS) (p : FPath) {d : FPath}
    (hd : d ∈ (makedirs fs p).1.dirs) :
    d ∈ fs.dirs ∨ (pathLE d p = true ∧ d ≠ []) := by
  rcases mkdirsAux_dirs_mem fs [] p hd with h | ⟨_, h2, h3⟩
  · exact Or.inl h
  · exact Or.inr ⟨by simpa using h2, h3⟩

theorem mkdirsAux_dirs_super (fs : FS) (done : FPath) (rest : List String) {d : FPath}
    (hd : d ∈ fs.dirs) : d ∈ (mkdirsAux fs done rest).1.dirs := by
  induction rest generalizing fs done with
  | nil => exact hd
  | cons c cs ih =>
    simp only [mkdirsAux]
    split
    · exact hd
    · split
      · exact ih _ _ hd
      · exact ih _ _ (List.mem_cons_of_mem _ hd)

theorem mkdirsAux_ok_contains (fs : FS) (done : FPath) (rest : List String)
    (h : (mkdirsAux fs done rest).2 = true) (hne : rest ≠ []) :
    (mkdirsAux fs done rest).1.dirs.contains (done ++ rest) = true := by
  induction rest generalizing fs done with
  | nil => exact absurd rfl hne
  | cons c cs ih =>
    simp only [mkdirsAux] at h ⊢
    by_cases hocc : (alookup fs.items (done ++ [c])).isSome = true
    · rw [if_pos hocc] at h; exact absurd h (by simp)
    · rw [if_neg hocc] at h ⊢
      cases cs with
      | nil =>
        by_cases hmem : fs.dirs.contains (done ++ [c]) = true
        · rw [if_pos hmem]
          simpa [mkdirsAux] using hmem
        · rw [if_neg hmem]
          simp [mkdirsAux]
      | cons c2 cs2 =>
        by_cases hmem : fs.dirs.contains (done ++ [c]) = true
        · rw [if_pos hmem] at h ⊢
          have := ih _ (done ++ [c]) h (by simp)
          simpa using this
        · rw [if_neg hmem] at h ⊢
          have := ih _ (done ++ [c]) h (by simp)
          simpa using this

/-- Index of the last '.' in a character list, if any. -/
def lastDotIdx : List Char → Option Nat
  | [] => none
  | c :: rest =>
    match lastDotIdx rest with
    | some i => some (i + 1)
    | none => if c = '.' then some 0 else none

/-- `os.path.splitext` on a bare filename: split at the last dot, unless every
character before that dot is itself a dot (leading-dot files keep no
extension). -/
def splitext (s : String) : String × String :=
  match lastDotIdx s.data with
  | none => (s, "")
  | some i =>
    if (s.data.take i).any (fun c => !(decide (c = '.'))) then
      (⟨s.data.take i⟩, ⟨s.data.drop i⟩)
    else (s, "")

/-- Collision suffix for a file: `f"{base}_{counter}{ext}"` with
`base, ext = os.path.splitext(result.filename)`. -/
def sfxFile (filename : String) (k : Nat) : String :=
  (splitext filename).1 ++ "_" ++ Nat.repr k ++ (splitext filename).2

/-- Collision suffix for a folder move: `f"{base_name}_{counter}"`. -/
def sfxFolder (name : String) (k : Nat) : String :=
  name ++ "_" ++ Nat.repr k

/-- One planned move handed to the executor: where the thing lives, which
destination directory it goes to, its basename, whether it is a folder-phase
move (different collision suffixing), and the category logged with it. -/
structure MoveReq where
  src : FPath
  destFolder : FPath
  name : String
  isFolder : Bool
  category : String
deriving DecidableEq, Repr

def mkName (req : MoveReq) (k : Nat) : String :=
  if req.isFolder then sfxFolder req.name k else sfxFile req.name k

/-- The `while os.path.exists(dest_path)` collision loop, with enough fuel to
cover every occupied path; `none` is returned on fuel exhaustion, which on a
real (finite, distinct-names) filesystem never happens. -/
def findFreeAux (fs : FS) (destFolder : FPath) (mk : Nat → String) : Nat → Nat → Option FPath
  | _, 0 => none
  | k, fuel + 1 =>
    if fs.pexists (destFolder ++ [mk k]) then findFreeAux fs destFolder mk (k + 1) fuel
    else some (destFolder ++ [mk k])

def findFree (fs : FS) (destFolder : FPath) (mk : Nat → String) : Option FPath :=
  findFreeAux fs destFolder mk 1 (fs.items.length + fs.dirs.length + 1)

/-- Destination chosen at execution time: the literal destination if free,
otherwise the first free suffixed variant, counting from 1. -/
def chooseDest (fs : FS) (req : MoveReq) : Option FPath :=
  if fs.pexists (req.destFolder ++ [req.name]) then findFree fs req.destFolder (mkName req)
  else some (req.destFolder ++ [req.name])

/-- One ledger entry, as appended by `TransactionLog.log_move` (the timestamp
is never read back and is omitted). -/
structure Entry where
  session : String
  source : FPath
  destination : FPath
  category : String
  undone : Bool
deriving DecidableEq, Repr

structure ExecState where
  fs : FS
  log : List Entry
deriving DecidableEq, Repr

/-- `q` with the leading segment `p` replaced by `r` when `p` leads to `q`
(used only to model `shutil.move` of a bare directory, an interference-only
corner). -/
def retargetTop (p r q : FPath) : FPath :=
  if pathLE p q then r ++ q.drop p.length else q

def fsRenameTree (fs : FS) (p r : FPath) : FS :=
  { items := fs.items.map (fun x => (retargetTop p r x.1, x.2)),
    dirs := fs.dirs.map (retargetTop p r) }

/-- The body of the executor's `try` block after `os.makedirs` succeeded on
filesystem `fs1`: resolve collisions, `shutil.move`, and append a ledger
entry.  Any failure (missing source, missing destination directory) leaves the
state as the caught exception would. -/
def execMoveCore (sid : String) (log : List Entry) (req : MoveReq) (fs1 : FS) : ExecState :=
  if fs1.dirs.contains req.destFolder then
    match chooseDest fs1 req with
    | none => { fs := fs1, log := log }
    | some dest =>
      match alookup fs1.items req.src with
      | none => { fs := fs1, log := log }
      | some it =>
        { fs := (fs1.eraseItem req.src).putItem dest it,
          log := log ++ [{ session := sid, source := req.src, destination := dest,
                           category := req.category, undone := false }] }
  else { fs := fs1, log := log }

/-- One executor iteration (`SortSense.execute_moves`, phase 1 for folder
requests with `domkdirs = true`, phase 2 for file requests with
`domkdirs = !existing_only`). -/
def execOne (sid : String) (domkdirs : Bool) (st : ExecState) (req : MoveReq) : ExecState :=
  if domkdirs then
    match makedirs st.fs req.destFolder with
    | (fs1, true) => execMoveCore sid st.log req fs1
    | (fs1, false) => { fs := fs1, log := st.log }
  else execMoveCore sid st.log req st.fs

def execMoves (sid : String) (st : ExecState) (reqs : List (Bool × MoveReq)) : ExecState :=
  reqs.foldl (fun st br => execOne sid br.1 st br.2) st

/-- `TransactionLog.get_last_session`: session id of the most recent
transaction not yet undone. -/
def getLastSession (log : List Entry) : Option String :=
  (log.reverse.find? (fun t => !t.undone)).map (·.session)

/-- `TransactionLog.get_session_moves`. -/
def getSessionMoves (log : List Entry) (sid : String) : List Entry :=
  log.filter (fun t => t.session == sid && !t.undone)

/-- `TransactionLog.mark_undone`. -/
def markUndone (log : List Entry) (sid : String) : List Entry :=
  log.map (fun t => if t.session = sid ∧ t.undone = false then { t with undone := true } else t)

/-- One iteration of `SortSense.undo_last_session`'s loop: if the recorded
destination still exists, recreate the source's parent directory and
`shutil.move` the destination back; count the restoration on success.  The
Boolean is `restored += 1`. -/
def undoEntry (fs : FS) (e : Entry) : FS × Bool :=
  if fs.pexists e.destination then
    match makedirs fs e.source.dropLast with
    | (fs1, false) => (fs1, false)
    | (fs1, true) =>
      match alookup fs1.items e.destination with
      | some it =>
        if fs1.dirs.contains e.source then
          if fs1.pexists (e.source ++ [e.destination.getLastD ""]) then (fs1, false)
          else ((fs1.eraseItem e.destination).putItem (e.source ++ [e.destination.getLastD ""]) it,
                true)
        else ((fs1.eraseItem e.destination).putItem e.source it, true)
      | none =>
        if fs1.dirs.contains e.source then
          (fsRenameTree fs1 e.destination (e.source ++ [e.destination.getLastD ""]), true)
        else (fsRenameTree fs1 e.destination e.source, true)
  else (fs, false)

def undoFold (fs : FS) (moves : List Entry) : FS × Nat :=
  moves.foldl (fun acc e =>
    ((undoEntry acc.1 e).1, if (undoEntry acc.1 e).2 then acc.2 + 1 else acc.2)) (fs, 0)

structure UndoResult where
  fs : FS
  log : List Entry
  restored : Nat
deriving DecidableEq, Repr

/-- `SortSense.undo_last_session`: restore the most recent not-yet-undone
session entry by entry, then mark the whole session undone; a no-op when no
such session exists. -/
def undoLastSession (fs : FS) (log : List Entry) : UndoResult :=
  match getLastSession log with
  | none => ⟨fs, log, 0⟩
  | some sid =>
    ⟨(undoFold fs (getSessionMoves log sid)).1, markUndone log sid,
     (undoFold fs (getSessionMoves log sid)).2⟩

theorem findFreeAux_spec (fs : FS) (destFolder : FPath) (mk : Nat → String) :
    ∀ fuel k d, findFreeAux fs destFolder mk k fuel = some d →
      ∃ j, k ≤ j ∧ d = destFolder ++ [mk j] ∧ fs.pexists (destFolder ++ [mk j]) = false ∧
        ∀ i, k ≤ i → i < j → fs.pexists (destFolder ++ [mk i]) = true := by
  intro fuel
  induction fuel with
  | zero => intro k d h; simp [findFreeAux] at h
  | succ n ih =>
    intro k d h
    simp only [findFreeAux] at h
    by_cases hex : fs.pexists (destFolder ++ [mk k]) = true
    · rw [if_pos hex] at h
      obtain ⟨j, hj1, hj2, hj3, hj4⟩ := ih (k + 1) d h
      refine ⟨j, by omega, hj2, hj3, fun i hi1 hi2 => ?_⟩
      rcases Nat.eq_or_lt_of_le hi1 with rfl | hi
      · exact hex
      · exact hj4 i hi hi2
    · rw [if_neg hex] at h
      cases h
      exact ⟨k, le_refl k, rfl, by simpa using hex, fun i hi1 hi2 => by omega⟩

theorem findFree_spec (fs : FS) (destFolder : FPath) (mk : Nat → String) (d : FPath)
    (h : findFree fs destFolder mk = some d) :
    ∃ j, 1 ≤ j ∧ d = destFolder ++ [mk j] ∧ fs.pexists (destFolder ++ [mk j]) = false ∧
      ∀ i, 1 ≤ i → i < j → fs.pexists (destFolder ++ [mk i]) = true :=
  findFreeAux_spec fs destFolder mk _ 1 d h

theorem chooseDest_free (fs : FS) (req : MoveReq) (d : FPath)
    (h : chooseDest fs req = some d) : fs.pexists d = false := by
  simp only [chooseDest] at h
  by_cases hex : fs.pexists (req.destFolder ++ [req.name]) = true
  · rw [if_pos hex] at h
    obtain ⟨j, _, rfl, h3, _⟩ := findFree_spec fs req.destFolder (mkName req) d h
    exact h3
  · rw [if_neg hex] at h
    cases h
    simpa using hex

theorem chooseDest_shape (fs : FS) (req : MoveReq) (d : FPath)
    (h : chooseDest fs req = some d) : ∃ n, d = req.destFolder ++ [n] := by
  simp only [chooseDest] at h
  by_cases hex : fs.pexists (req.destFolder ++ [req.name]) = true
  · rw [if_pos hex] at h
    obtain ⟨j, _, rfl, _, _⟩ := findFree_spec fs req.destFolder (mkName req) d h
    exact ⟨mkName req j, rfl⟩
  · rw [if_neg hex] at h
    cases h
    exact ⟨req.name, rfl⟩

/-- A confidence value as the engine sees it: Python `int` (keyword-match
count) or `float` (vision score / normalized value). -/
inductive Conf where
  | int (n : ℤ)
  | float (q : ℚ)
deriving DecidableEq, Repr

/-- `execute_moves` confidence normalization:
`confidence / 5.0` when `isinstance(confidence, int) and confidence > 1`,
else `float(confidence)`. -/
def normalizeConf : Conf → ℚ
  | .int n => if 1 < n then (n : ℚ) / 5 else (n : ℚ)
  | .float q => q

/-- One element of `self.results` (`FileAnalysis`), restricted to the fields
the phase-2 planner reads in non-interactive mode. -/
structure ResultR where
  filepath : FPath
  filename : String
  category : String
  confidence : Conf
  recommendedDestination : FPath
  detectedSubfolder : String
deriving DecidableEq, Repr

/-- The phase-2 `misc_threshold` / default-category routing block of
`execute_moves`: `none` models `skipped += 1; continue`. -/
def routeByConfidence (defaultCat : String) (miscFolder : FPath) (miscThreshold : ℚ)
    (r : ResultR) : Option (String × FPath) :=
  if 0 < miscThreshold ∧ normalizeConf r.confidence < miscThreshold then
    if r.category ≠ defaultCat then some ("misc", miscFolder)
    else some ("misc", miscFolder)
  else if r.category = defaultCat then none
  else some (r.category, r.recommendedDestination)

/-- The `existing_folders` set scanned at the top of `execute_moves`:
lower-cased names of non-hidden top-level directories of the destination. -/
def topLevelFolders (fs : FS) (destRoot : FPath) : List String :=
  fs.dirs.filterMap (fun d =>
    if pathLE destRoot d ∧ d.length = destRoot.length + 1 ∧
        ¬ startsDot (d.getLastD "") = true then
      some (lowerStr (d.getLastD ""))
    else none)

inductive PlanOut where
  | skip
  | move (category : String) (destFolder : FPath)
deriving DecidableEq, Repr

/-- Phase-2 planning for one `FileAnalysis` in non-interactive, non-dry-run
mode: confidence routing, then the detected-subfolder redirect (only when the
subfolder path already exists), then the `existing_only` skip, which tests the
leaf name computed *before* the subfolder redirect against the top-level
`existing_folders` set. -/
def planFile (fs : FS) (defaultCat : String) (destRoot : FPath) (existingFolders : List String)
    (miscThreshold : ℚ) (existingOnly : Bool) (r : ResultR) : PlanOut :=
  match routeByConfidence defaultCat (destRoot ++ ["personal", "misc"]) miscThreshold r with
  | none => .skip
  | some (category, destFolder0) =>
    let folderExists := existingFolders.contains (lowerStr (destFolder0.getLastD ""))
    let destFolder :=
      if r.detectedSubfolder ≠ "" ∧ fs.pexists (destFolder0 ++ [r.detectedSubfolder]) then
        destFolder0 ++ [r.detectedSubfolder]
      else destFolder0
    if existingOnly ∧ folderExists = false then .skip
    else .move category destFolder

/-- One element of `self.folder_results` (`FolderAnalysis`), restricted to the
fields phase 1 of the executor reads. -/
structure FolderReq where
  folderPath : FPath
  folderName : String
  dominantCategory : String
  recommendedDestination : FPath
deriving DecidableEq, Repr

def folderReqToMove (fr : FolderReq) : MoveReq :=
  { src := fr.folderPath, destFolder := fr.recommendedDestination, name := fr.folderName,
    isFolder := true, category := fr.dominantCategory }

/-- `SortSense.execute_moves` with `dry_run=False, interactive=False`: phase 1
moves folder results (always creating destination directories), phase 2 plans
each file result and moves it (creating directories only when not
`existing_only`). -/
def executeMoves (fs : FS) (sid defaultCat : String) (destRoot : FPath)
    (folderResults : List FolderReq) (results : List ResultR)
    (miscThreshold : ℚ) (existingOnly : Bool) : ExecState :=
  let existing := topLevelFolders fs destRoot
  let st1 := execMoves sid ⟨fs, []⟩ (folderResults.map (fun fr => (true, folderReqToMove fr)))
  results.foldl (fun st r =>
    match planFile st.fs defaultCat destRoot existing miscThreshold existingOnly r with
    | .skip => st
    | .move c d => execOne sid (!existingOnly) st
        { src := r.filepath, destFolder := d, name := r.filename, isFolder := false,
          category := c }) st1

/-- Last path segment of a category's configured folder string
(`Path(folder_name).name`). -/
def leafName (s : String) : String := String.mk ((splitSlash s.data).getLastD s.data)

/-- `cat_config.get("folder", category)` over the registry
(`config.categories`); a category may configure no folder. -/
def registryFolder (cats : List (String × Option String)) (category : String) : String :=
  match alookup cats category with
  | some (some f) => f
  | some none => category
  | none => category

/-- `SortSense.get_folder_path`: the discovered nested location for the
folder's leaf name if the run's discovery cache has one, else the configured
folder path. -/
def getFolderPath (cats : List (String × Option String)) (cache : List (String × FPath))
    (category : String) : FPath :=
  match alookup cache (lowerStr (leafName (registryFolder cats category))) with
  | some p => p
  | none => strToPath (registryFolder cats category)

/-- The set of known category leaf-folder names built at the top of
`discover_existing_folders`. -/
def categoryLeafNames (cats : List (String × Option String)) : List String :=
  cats.map (fun c => lowerStr (leafName (match c.2 with | some f => f | none => c.1)))

/-- A destination directory tree; only directories appear because the walk
ignores non-directories. -/
inductive DirTree where
  | node (name : String) (children : List DirTree)

def DirTree.name : DirTree → String
  | .node n _ => n

def DirTree.children : DirTree → List DirTree
  | .node _ c => c

mutual
/-- `walk_folders(path, depth)`: stop past `max_depth`, else process the
children in iteration order. -/
def walkTree (cats : List String) (maxDepth : Nat) (t : DirTree) (depth : Nat) (rel : FPath)
    (acc : List (String × FPath)) : List (String × FPath) :=
  if depth > maxDepth then acc
  else
    match t with
    | .node _ children => walkChildren cats maxDepth children depth rel acc

/-- The `for item in path.iterdir()` loop: record a non-hidden directory whose
lower-cased name is a known category leaf not yet recorded, then recurse into
it, then continue with the remaining siblings. -/
def walkChildren (cats : List String) (maxDepth : Nat) (ts : List DirTree) (depth : Nat)
    (rel : FPath) (acc : List (String × FPath)) : List (String × FPath) :=
  match ts with
  | [] => acc
  | c :: rest =>
    if startsDot c.name then walkChildren cats maxDepth rest depth rel acc
    else
      walkChildren cats maxDepth rest depth rel
        (walkTree cats maxDepth c (depth + 1) (rel ++ [c.name])
          (if cats.contains (lowerStr c.name) ∧ alookup acc (lowerStr c.name) = none then
            acc ++ [(lowerStr c.name, rel ++ [c.name])]
          else acc))
end

/-- `SortSense.discover_existing_folders` over a destination tree. -/
def discoverExistingFolders (cats : List (String × Option String)) (maxDepth : Nat)
    (base : DirTree) : List (String × FPath) :=
  walkTree (categoryLeafNames cats) maxDepth base 0 [] []

/-- The two default/no-match spellings excluded by the cohesion analyzer
(`('uncategorized', 'unsorted')`). -/
def defaultsSS (c : String) : Bool := c == "uncategorized" || c == "unsorted"

/-- Keys of the Python dict built by `categories[cat] = categories.get(cat, 0) + 1`,
i.e. the sampled categories in first-occurrence order. -/
def firstOccur : List String → List String
  | [] => []
  | c :: rest => c :: firstOccur (rest.filter (fun x => !(x == c)))
termination_by l => l.length
decreasing_by
  simp only [List.length_cons]
  exact Nat.lt_succ_of_le (List.length_filter_le _ _)

/-- The dict built by the sampling loop of `analyze_folder_cohesion`: keys in
first-occurrence order, values the multiplicities. -/
def sampleCounts (cats : List String) : List (String × Nat) :=
  (firstOccur cats).map (fun d => (d, cats.count d))

/-- The `for cat, count in categories.items()` 80%-majority loop. -/
def cohesionLoop (counts : List (String × Nat)) (total : Nat) : Option (String × ℚ) :=
  match counts.find? (fun p => !defaultsSS p.1 && decide ((4 : ℚ)/5 ≤ (p.2 : ℚ)/(total : ℚ))) with
  | some p => some (p.1, (p.2 : ℚ)/(total : ℚ))
  | none => none

/-- Step 5 of `analyze_folder_cohesion`, as a function of the sampled
categories: `none` models "not cohesive", `some (cat, conf)` a cohesive
verdict.  An empty sample is not cohesive; a unanimous non-default sample is
cohesive at confidence 1.0; otherwise the first category (in dict order) that
is non-default and holds at least 80% of the sample wins at that fraction. -/
def cohesionOfSample (cats : List String) : Option (String × ℚ) :=
  if cats.isEmpty then none
  else
    match sampleCounts cats with
    | [(c, _)] =>
      if !defaultsSS c then some (c, 1)
      else cohesionLoop (sampleCounts cats) (((sampleCounts cats).map Prod.snd).sum)
    | _ => cohesionLoop (sampleCounts cats) (((sampleCounts cats).map Prod.snd).sum)

theorem execMoveCore_dirs (sid : String) (log : List Entry) (req : MoveReq) (fs1 : FS) :
    (execMoveCore sid log req fs1).fs.dirs = fs1.dirs := by
  simp only [execMoveCore]
  split
  · split
    · rfl
    · split
      · rfl
      · rfl
  · rfl

/-- C3 counterexample: an integer confidence of 1 (one keyword match, on the
0-5 scale) normalizes to 1, not to 1/5, because the normalizer divides only
integers strictly greater than 1. -/
theorem c3_counterexample : normalizeConf (Conf.int 1) ≠ 1 / 5 := by
  simp only [normalizeConf]
  norm_num

/-- C3 (amended): confidence normalization divides an integer confidence by 5
only when it is strictly greater than 1; the integers 0 and 1 (and every
float) are used directly, so `k/5` is obtained for `k = 0` and `2 ≤ k ≤ 5`
but the integer 1 normalizes to 1. -/
theorem c3_amended :
    (∀ n : ℤ, 1 < n → normalizeConf (Conf.int n) = (n : ℚ) / 5) ∧
    normalizeConf (Conf.int 0) = 0 ∧
    normalizeConf (Conf.int 1) = 1 ∧
    (∀ q : ℚ, normalizeConf (Conf.float q) = q) := by
  refine ⟨fun n hn => ?_, by decide, by decide, fun q => rfl⟩
  simp [normalizeConf, hn]

theorem c3_witness :
    normalizeConf (Conf.int 5) = (5 : ℚ) / 5 ∧ normalizeConf (Conf.int 4) = (4 : ℚ) / 5 :=
  ⟨c3_amended.1 5 (by norm_num), c3_amended.1 4 (by norm_num)⟩

/-- C2: in phase 2, a nonzero misc threshold with a normalized confidence
strictly below it reroutes the item to category `misc` at the fixed catch-all
destination `<destination>/personal/misc`, regardless of the classifier's
category; the full plan then either skips the item (existing-only) or moves
it with category `misc`. -/
theorem c2_misc_reroute (fs : FS) (defaultCat : String) (destRoot : FPath)
    (existingFolders : List String) (miscThreshold : ℚ) (existingOnly : Bool) (r : ResultR)
    (h1 : 0 < miscThreshold) (h2 : normalizeConf r.confidence < miscThreshold) :
    routeByConfidence defaultCat (destRoot ++ ["personal", "misc"]) miscThreshold r
        = some ("misc", destRoot ++ ["personal", "misc"]) ∧
    (planFile fs defaultCat destRoot existingFolders miscThreshold existingOnly r = .skip ∨
      ∃ d, planFile fs defaultCat destRoot existingFolders miscThreshold existingOnly r
        = .move "misc" d) := by
  have hroute : routeByConfidence defaultCat (destRoot ++ ["personal", "misc"]) miscThreshold r
      = some ("misc", destRoot ++ ["personal", "misc"]) := by
    simp only [routeByConfidence, if_pos (And.intro h1 h2)]
    split <;> rfl
  refine ⟨hroute, ?_⟩
  simp only [planFile, hroute]
  by_cases he : existingOnly = true ∧
      existingFolders.contains (lowerStr ((destRoot ++ ["personal", "misc"]).getLastD "")) = false
  · left
    simp only [if_pos he]
  · right
    simp only [if_neg he]
    exact ⟨_, rfl⟩

theorem c2_witness :
    routeByConfidence "unsorted" (["d"] ++ ["personal", "misc"]) (1/2)
        { filepath := ["s", "x.txt"], filename := "x.txt", category := "documents",
          confidence := Conf.float (1/4), recommendedDestination := ["d", "documents"],
          detectedSubfolder := "" }
      = some ("misc", ["d"] ++ ["personal", "misc"]) ∧
    (planFile ⟨[], [["d"]]⟩ "unsorted" ["d"] ["documents"] (1/2) false
        { filepath := ["s", "x.txt"], filename := "x.txt", category := "documents",
          confidence := Conf.float (1/4), recommendedDestination := ["d", "documents"],
          detectedSubfolder := "" } = .skip ∨
      ∃ d, planFile ⟨[], [["d"]]⟩ "unsorted" ["d"] ["documents"] (1/2) false
        { filepath := ["s", "x.txt"], filename := "x.txt", category := "documents",
          confidence := Conf.float (1/4), recommendedDestination := ["d", "documents"],
          detectedSubfolder := "" } = .move "misc" d) :=
  c2_misc_reroute _ _ _ _ _ _ _ (by norm_num) (by norm_num [normalizeConf])

/-- Destination filesystem for the C6 counterexample: the destination root
`d` holds a `documents` folder that already contains a `chase` subfolder. -/
def fsC6 : FS := ⟨[], [["d"], ["d", "documents"], ["d", "documents", "chase"]]⟩

/-- A high-confidence `documents` file whose parent folder gave it detected
subfolder `chase`. -/
def rC6 : ResultR :=
  { filepath := ["s", "chase", "stmt.pdf"], filename := "stmt.pdf", category := "documents",
    confidence := Conf.int 1, recommendedDestination := ["d", "documents"],
    detectedSubfolder := "chase" }

/-- C6 counterexample: a file with confidence strictly above the misc
threshold and category `documents` (not the default) is planned into
`d/documents/chase` because its detected subfolder already exists — the
destination leaf is `chase`, which is neither the registry folder
`documents` for the category nor any discovered cache override (the cache is
empty). -/
theorem c6_counterexample :
    planFile fsC6 "unsorted" ["d"] (topLevelFolders fsC6 ["d"]) 0 false rC6
        = .move "documents" ["d", "documents", "chase"] ∧
    (0 : ℚ) < normalizeConf (Conf.int 1) ∧
    "documents" ≠ "unsorted" ∧
    getFolderPath [("documents", some "documents")] [] "documents" = ["documents"] ∧
    (["d", "documents", "chase"] : FPath).getLastD "" ≠ "documents" := by
  refine ⟨by decide, by decide, by decide, by decide, by decide⟩

/-- C6 (amended): for a file with normalized confidence strictly above the
misc threshold and category other than the default, the phase-2 plan either
skips (existing-only with a missing top-level leaf) or moves the file under
its own category to the destination computed from `get_folder_path` (the
discovered cache override for the folder's leaf name, else the registry
folder), possibly extended by one further level: the detected subfolder, when
that subfolder already exists on disk. -/
theorem c6_amended (fs : FS) (defaultCat : String) (destRoot : FPath)
    (existingFolders : List String) (miscThreshold : ℚ) (existingOnly : Bool) (r : ResultR)
    (cats : List (String × Option String)) (cache : List (String × FPath))
    (h1 : miscThreshold < normalizeConf r.confidence)
    (h2 : r.category ≠ defaultCat)
    (h3 : r.recommendedDestination = destRoot ++ getFolderPath cats cache r.category) :
    planFile fs defaultCat destRoot existingFolders miscThreshold existingOnly r = .skip ∨
    planFile fs defaultCat destRoot existingFolders miscThreshold existingOnly r
      = .move r.category (destRoot ++ getFolderPath cats cache r.category) ∨
    planFile fs defaultCat destRoot existingFolders miscThreshold existingOnly r
      = .move r.category
          (destRoot ++ getFolderPath cats cache r.category ++ [r.detectedSubfolder]) := by
  have hnr : ¬ (0 < miscThreshold ∧ normalizeConf r.confidence < miscThreshold) := by
    rintro ⟨_, hlt⟩
    exact absurd h1 (not_lt.mpr hlt.le)
  have hroute : routeByConfidence defaultCat (destRoot ++ ["personal", "misc"]) miscThreshold r
      = some (r.category, r.recommendedDestination) := by
    simp only [routeByConfidence, if_neg hnr, if_neg h2]
  simp only [planFile, hroute, h3]
  by_cases he : existingOnly = true ∧ existingFolders.contains
      (lowerStr ((destRoot ++ getFolderPath cats cache r.category).getLastD "")) = false
  · left
    simp only [if_pos he]
  · by_cases hsub : r.detectedSubfolder ≠ "" ∧
        fs.pexists (destRoot ++ getFolderPath cats cache r.category ++ [r.detectedSubfolder])
          = true
    · right; right
      simp only [if_neg he, if_pos hsub]
    · right; left
      simp only [if_neg he, if_neg hsub]

theorem c6_witness :
    planFile fsC6 "unsorted" ["d"] (topLevelFolders fsC6 ["d"]) 0 false rC6 = .skip ∨
    planFile fsC6 "unsorted" ["d"] (topLevelFolders fsC6 ["d"]) 0 false rC6
      = .move rC6.category
          (["d"] ++ getFolderPath [("documents", some "documents")] [] rC6.category) ∨
    planFile fsC6 "unsorted" ["d"] (topLevelFolders fsC6 ["d"]) 0 false rC6
      = .move rC6.category
          (["d"] ++ getFolderPath [("documents", some "documents")] [] rC6.category
            ++ [rC6.detectedSubfolder]) :=
  c6_amended fsC6 "unsorted" ["d"] (topLevelFolders fsC6 ["d"]) 0 false rC6
    [("documents", some "documents")] [] (by decide)
    (by decide) (by decide)

theorem topLevelFolders_mem {fs : FS} {destRoot : FPath} {x : String}
    (hx : x ∈ topLevelFolders fs destRoot) :
    ∃ d ∈ fs.dirs, pathLE destRoot d = true ∧ x = lowerStr (d.getLastD "") := by
  simp only [topLevelFolders, List.mem_filterMap] at hx
  obtain ⟨d, hd, hfd⟩ := hx
  by_cases hcond : pathLE destRoot d = true ∧ d.length = destRoot.length + 1 ∧
      ¬ startsDot (d.getLastD "") = true
  · rw [if_pos hcond] at hfd
    cases hfd
    exact ⟨d, hd, hcond.1, rfl⟩
  · rw [if_neg hcond] at hfd
    cases hfd

theorem containsStr_iff (L : List String) (x : String) : L.contains x = true ↔ x ∈ L := by
  induction L with
  | nil => simp
  | cons a L ih => simp

/-- C9 (amended): in existing-only mode, (1) a file-phase item whose routed
destination's leaf name matches no directory anywhere under the destination
root is skipped by the planner, and (2) the file-phase executor never creates
any directory.  (Folder-phase moves, by contrast, run `os.makedirs`
unconditionally — see the counterexample.) -/
theorem c9_amended :
    (∀ (fs : FS) (defaultCat : String) (destRoot : FPath) (miscThreshold : ℚ) (r : ResultR)
      (category : String) (destFolder0 : FPath),
      routeByConfidence defaultCat (destRoot ++ ["personal", "misc"]) miscThreshold r
        = some (category, destFolder0) →
      (∀ d ∈ fs.dirs, pathLE destRoot d = true →
        lowerStr (d.getLastD "") ≠ lowerStr (destFolder0.getLastD "")) →
      planFile fs defaultCat destRoot (topLevelFolders fs destRoot) miscThreshold true r
        = .skip) ∧
    (∀ (sid : String) (st : ExecState) (req : MoveReq),
      (execOne sid false st req).fs.dirs = st.fs.dirs) := by
  constructor
  · intro fs defaultCat destRoot miscThreshold r category destFolder0 hroute hnone
    have hnm : lowerStr (destFolder0.getLastD "") ∉ topLevelFolders fs destRoot := by
      intro hmem
      obtain ⟨d, hd, hle, hx⟩ := topLevelFolders_mem hmem
      exact hnone d hd hle hx.symm
    simp only [planFile, hroute]
    simp
    simpa using hnm
  · intro sid st req
    simp only [execOne, Bool.false_eq_true, if_false]
    exact execMoveCore_dirs sid st.log req st.fs

/-- Source and destination filesystems for the C9 counterexample: a macOS app
bundle sits in the source folder `s`; the destination root `d` has no
`downloaded-apps` folder. -/
def fsC9 : FS := ⟨[(["s", "App.app"], 7)], [["d"], ["s"]]⟩

/-- The phase-1 folder request `analyze_folder` produces for the bundle. -/
def frC9 : FolderReq :=
  { folderPath := ["s", "App.app"], folderName := "App.app",
    dominantCategory := "downloaded-apps", recommendedDestination := ["d", "downloaded-apps"] }

/-- C9 counterexample: running `execute_moves` in existing-only mode with one
detected app bundle creates the brand-new top-level folder
`d/downloaded-apps` under the destination root — phase 1 never consults
`existing_only`. -/
theorem c9_counterexample :
    (["d", "downloaded-apps"] ∈
      (executeMoves fsC9 "sess" "unsorted" ["d"] [frC9] [] 0 true).fs.dirs) ∧
    (["d", "downloaded-apps"] ∉ fsC9.dirs) ∧
    pathLE ["d"] ["d", "downloaded-apps"] = true ∧
    (["d", "downloaded-apps"] : FPath).length = (["d"] : FPath).length + 1 := by
  refine ⟨by decide, by decide, by decide, by decide⟩

theorem c9_witness :
    planFile fsC9 "unsorted" ["d"]
        (topLevelFolders fsC9 ["d"]) 0 true
        { filepath := ["s", "n.txt"], filename := "n.txt", category := "documents",
          confidence := Conf.int 1, recommendedDestination := ["d", "documents"],
          detectedSubfolder := "" } = .skip ∧
    (execOne "sess" false
        ⟨fsC9, []⟩
        { src := ["s", "n.txt"], destFolder := ["d", "documents"], name := "n.txt",
          isFolder := false, category := "documents" }).fs.dirs = fsC9.dirs := by
  constructor
  · exact c9_amended.1 fsC9 "unsorted" ["d"] 0
      { filepath := ["s", "n.txt"], filename := "n.txt", category := "documents",
        confidence := Conf.int 1, recommendedDestination := ["d", "documents"],
        detectedSubfolder := "" } "documents" ["d", "documents"] (by decide) (by decide)
  · exact c9_amended.2 "sess" ⟨fsC9, []⟩
      { src := ["s", "n.txt"], destFolder := ["d", "documents"], name := "n.txt",
        isFolder := false, category := "documents" }

/-- C7: whenever the literal destination path is occupied at execution time,
the executor's destination is the suffixed variant `_k` for some `k ≥ 1`
whose path is free while every earlier suffix `_1 .. _(k-1)` was occupied —
the numeric suffix starts at 1 and increments until a free path is found
(`mkName` places the suffix before the file extension for file moves and
after the whole name for folder moves). -/
theorem c7_collision_suffix (fs : FS) (req : MoveReq) (d : FPath)
    (hex : fs.pexists (req.destFolder ++ [req.name]) = true)
    (h : chooseDest fs req = some d) :
    ∃ k, 1 ≤ k ∧ d = req.destFolder ++ [mkName req k] ∧
      fs.pexists (req.destFolder ++ [mkName req k]) = false ∧
      ∀ j, 1 ≤ j → j < k → fs.pexists (req.destFolder ++ [mkName req j]) = true := by
  simp only [chooseDest, if_pos hex] at h
  exact findFree_spec fs req.destFolder (mkName req) d h

/-- Destination directory already holding `report.pdf`. -/
def fsC7a : FS := ⟨[(["d", "docs", "report.pdf"], 1)], [["d"], ["d", "docs"]]⟩

/-- Destination directory holding both `report.pdf` and `report_1.pdf`. -/
def fsC7b : FS :=
  ⟨[(["d", "docs", "report.pdf"], 1), (["d", "docs", "report_1.pdf"], 2)],
   [["d"], ["d", "docs"]]⟩

def reqC7 : MoveReq :=
  { src := ["s", "report.pdf"], destFolder := ["d", "docs"], name := "report.pdf",
    isFolder := false, category := "documents" }

theorem c7_witness :
    (∃ k, 1 ≤ k ∧ (["d", "docs", "report_1.pdf"] : FPath) = reqC7.destFolder ++ [mkName reqC7 k] ∧
      fsC7a.pexists (reqC7.destFolder ++ [mkName reqC7 k]) = false ∧
      ∀ j, 1 ≤ j → j < k → fsC7a.pexists (reqC7.destFolder ++ [mkName reqC7 j]) = true) ∧
    chooseDest fsC7a reqC7 = some ["d", "docs", "report_1.pdf"] ∧
    chooseDest fsC7b reqC7 = some ["d", "docs", "report_2.pdf"] :=
  ⟨c7_collision_suffix fsC7a reqC7 ["d", "docs", "report_1.pdf"] (by decide) (by decide),
   by decide, by decide⟩

/-- Registry for the C4 failing input: one category `housing` with folder
`housing`. -/
def cfgC4 : List (String × Option String) := [("housing", some "housing")]

/-- Destination tree for the C4 failing input, in iteration order: first a
directory `a` containing a nested `housing`, then a top-level `housing`. -/
def treeC4 : DirTree := .node "dest" [.node "a" [.node "housing" []], .node "housing" []]

/-- C4: folder discovery records `a/housing` — the first match in depth-first
preorder — and then refuses to overwrite it when it reaches the shallower
top-level `housing`, so the recorded path for `housing` is NOT the shallowest
matching directory, contradicting the claim (and the code's own comment
"Prefer shallower paths"). -/
theorem c4_discovery_not_shallowest :
    discoverExistingFolders cfgC4 3 treeC4 = [("housing", ["a", "housing"])] ∧
    alookup (discoverExistingFolders cfgC4 3 treeC4) "housing" = some ["a", "housing"] ∧
    (["a", "housing"] : FPath).length ≠ (["housing"] : FPath).length := by
  refine ⟨by decide, by decide, by decide⟩

theorem mem_firstOccur_aux :
    ∀ (n : Nat) (l : List String), l.length ≤ n → ∀ a, (a ∈ firstOccur l ↔ a ∈ l) := by
  intro n
  induction n with
  | zero =>
    intro l hl a
    cases l with
    | nil => simp [firstOccur]
    | cons c rest => simp at hl
  | succ n ih =>
    intro l hl a
    cases l with
    | nil => simp [firstOccur]
    | cons c rest =>
      rw [firstOccur]
      simp only [List.mem_cons]
      have hle : (rest.filter (fun x => !(x == c))).length ≤ n := by
        have := List.length_filter_le (fun x => !(x == c)) rest
        simp only [List.length_cons] at hl
        omega
      rw [ih _ hle a]
      constructor
      · rintro (rfl | hf)
        · exact Or.inl rfl
        · exact Or.inr (List.mem_filter.mp hf).1
      · rintro (rfl | hr)
        · exact Or.inl rfl
        · by_cases hac : a = c
          · exact Or.inl hac
          · exact Or.inr (List.mem_filter.mpr ⟨hr, by simp [hac]⟩)

theorem mem_firstOccur {l : List String} {a : String} : a ∈ firstOccur l ↔ a ∈ l :=
  mem_firstOccur_aux l.length l (le_refl _) a

theorem firstOccur_counts_sum :
    ∀ (n : Nat) (l : List String), l.length ≤ n →
      ((firstOccur l).map (fun d => l.count d)).sum = l.length := by
  intro n
  induction n with
  | zero =>
    intro l hl
    cases l with
    | nil => simp [firstOccur]
    | cons c rest => simp at hl
  | succ n ih =>
    intro l hl
    cases l with
    | nil => simp [firstOccur]
    | cons c rest =>
      rw [firstOccur]
      simp only [List.map_cons, List.sum_cons]
      have hle : (rest.filter (fun x => !(x == c))).length ≤ n := by
        have := List.length_filter_le (fun x => !(x == c)) rest
        simp only [List.length_cons] at hl
        omega
      have hcongr : (firstOccur (rest.filter (fun x => !(x == c)))).map
            (fun d => (c :: rest).count d)
          = (firstOccur (rest.filter (fun x => !(x == c)))).map
            (fun d => (rest.filter (fun x => !(x == c))).count d) := by
        apply List.map_congr_left
        intro d hd
        have hdmem : d ∈ rest.filter (fun x => !(x == c)) := mem_firstOccur.mp hd
        have hdc : d ≠ c := by
          have := (List.mem_filter.mp hdmem).2
          simpa using this
        have hcd : ¬ c = d := fun hh => hdc hh.symm
        rw [List.count_cons]
        simp only [beq_iff_eq, if_neg hcd]
        rw [List.count_filter (by rw [Bool.not_eq_true', beq_eq_false_iff_ne]; exact hdc)]
        simp
      rw [hcongr, ih _ hle]
      have hsplit : rest.length
          = (rest.filter (fun x => !(x == c))).length + rest.count c := by
        have h1 : rest.count c = (rest.filter (fun x => x == c)).length := by
          rw [List.count, List.countP_eq_length_filter]
        have h2 : (rest.filter (fun x => !(x == c))).length
            = List.countP (fun x => !(x == c)) rest := by
          rw [List.countP_eq_length_filter]
        rw [h1, h2]
        have hsum := List.length_eq_countP_add_countP (p := fun x => x == c) (l := rest)
        rw [List.countP_eq_length_filter] at hsum
        have hco : List.countP (fun x => !(x == c)) rest
            = List.countP (fun x => decide ¬ (x == c) = true) rest := by
          apply List.countP_congr
          intro x _
          simp
        omega
      rw [List.count_cons_self]
      simp only [List.length_cons]
      omega

theorem count_add_count_le_length {l : List String} {c d : String} (h : c ≠ d) :
    l.count c + l.count d ≤ l.length := by
  induction l with
  | nil => simp
  | cons a l ih =>
    rw [List.count_cons, List.count_cons]
    simp only [List.length_cons]
    by_cases h1 : a = c <;> by_cases h2 : a = d
    · exact absurd (h1.symm.trans h2) h
    · simp only [beq_iff_eq, if_pos h1, if_neg h2]
      omega
    · simp only [beq_iff_eq, if_neg h1, if_pos h2]
      omega
    · simp only [beq_iff_eq, if_neg h1, if_neg h2]
      omega

theorem find?_eq_some_of_unique {α : Type} {p : α → Bool} {l : List α} {x : α}
    (hx : x ∈ l) (hpx : p x = true) (huniq : ∀ y ∈ l, p y = true → y = x) :
    l.find? p = some x := by
  induction l with
  | nil => cases hx
  | cons a l ih =>
    by_cases hpa : p a = true
    · have hax : a = x := huniq a (List.mem_cons_self a l) hpa
      subst hax
      exact List.find?_cons_of_pos l hpa
    · rw [List.find?_cons_of_neg l hpa]
      cases hx with
      | head => exact absurd hpx hpa
      | tail _ hx =>
        exact ih hx (fun y hy hpy => huniq y (List.mem_cons_of_mem a hy) hpy)

theorem sampleCounts_snd_sum (cats : List String) :
    ((sampleCounts cats).map Prod.snd).sum = cats.length := by
  simp only [sampleCounts, List.map_map]
  exact firstOccur_counts_sum cats.length cats (le_refl _)

/-- C5: over any non-empty cohesion sample, if a category other than the two
default spellings holds at least 80% of the sample, step 5 judges the folder
cohesive with that category at confidence equal to that fraction; if no
non-default category reaches 80%, the folder is judged not cohesive. -/
theorem c5_cohesion :
    (∀ (cats : List String) (c : String), cats ≠ [] → defaultsSS c = false →
      (4 : ℚ)/5 ≤ (cats.count c : ℚ) / (cats.length : ℚ) →
      cohesionOfSample cats = some (c, (cats.count c : ℚ) / (cats.length : ℚ))) ∧
    (∀ cats : List String, cats ≠ [] →
      (∀ c ∈ cats, defaultsSS c = false → (cats.count c : ℚ) / (cats.length : ℚ) < 4/5) →
      cohesionOfSample cats = none) := by
  constructor
  · intro cats c hne hdef hfrac
    have hlen : 0 < cats.length := List.length_pos.mpr hne
    have hlenQ : (0:ℚ) < (cats.length : ℚ) := by exact_mod_cast hlen
    have hfracN : 4 * cats.length ≤ cats.count c * 5 := by
      have := (div_le_div_iff₀ (by norm_num) hlenQ).mp hfrac
      exact_mod_cast this
    have hcpos : 0 < cats.count c := by omega
    have hcmem : c ∈ cats := List.count_pos_iff.mp hcpos
    have htotal : ((sampleCounts cats).map Prod.snd).sum = cats.length :=
      sampleCounts_snd_sum cats
    rcases hfo : firstOccur cats with _ | ⟨d, ds⟩
    · exact absurd (mem_firstOccur.mpr hcmem) (by rw [hfo]; simp)
    rcases ds with _ | ⟨e, es⟩
    · have hall : ∀ x ∈ cats, x = d := fun x hx => by
        have hxm := mem_firstOccur.mpr hx
        rw [hfo] at hxm
        simpa using hxm
      have hcd : c = d := hall c hcmem
      subst hcd
      have hcl : cats.count c = cats.length :=
        List.count_eq_length.mpr (fun b hb => (hall b hb).symm)
      have hfr1 : (cats.count c : ℚ) / (cats.length : ℚ) = 1 := by
        rw [hcl]
        exact div_self (ne_of_gt hlenQ)
      rw [hfr1]
      have hsc : sampleCounts cats = [(c, cats.count c)] := by
        simp only [sampleCounts, hfo, List.map_cons, List.map_nil]
      cases cats with
      | nil => exact absurd rfl hne
      | cons a as =>
        simp only [cohesionOfSample, List.isEmpty_cons, Bool.false_eq_true, if_false, hsc]
        rw [if_pos (by simp [hdef])]
    · have hsc : sampleCounts cats
          = (d, cats.count d) :: (e, cats.count e) :: es.map (fun x => (x, cats.count x)) := by
        simp only [sampleCounts, hfo, List.map_cons]
      have hmemc : (c, cats.count c) ∈ sampleCounts cats := by
        simp only [sampleCounts]
        exact List.mem_map.mpr ⟨c, mem_firstOccur.mpr hcmem, rfl⟩
      have hfind : (sampleCounts cats).find?
          (fun q => !defaultsSS q.1 && decide ((4 : ℚ)/5 ≤ (q.2 : ℚ)/((cats.length : ℕ) : ℚ)))
          = some (c, cats.count c) := by
        apply find?_eq_some_of_unique hmemc
        · simp only [hdef, Bool.not_false, Bool.true_and]
          exact decide_eq_true hfrac
        · rintro ⟨d', n'⟩ hy hpy
          obtain ⟨d'', hd'', heq⟩ := List.mem_map.mp hy
          injection heq with h1 h2
          subst h1
          subst h2
          simp only [Bool.and_eq_true, Bool.not_eq_true', decide_eq_true_eq] at hpy
          obtain ⟨hdef', hfrac'⟩ := hpy
          by_cases hdc : d'' = c
          · subst hdc
            rfl
          · exfalso
            have hfracN' : 4 * cats.length ≤ cats.count d'' * 5 := by
              have := (div_le_div_iff₀ (by norm_num) hlenQ).mp hfrac'
              exact_mod_cast this
            have hsum := count_add_count_le_length (l := cats) (c := c) (d := d'')
              (fun hh => hdc hh.symm)
            omega
      cases cats with
      | nil => exact absurd rfl hne
      | cons a as =>
        have htotal2 := htotal
        rw [hsc] at htotal2 hfind
        simp only [cohesionOfSample, List.isEmpty_cons, Bool.false_eq_true, if_false, hsc]
        simp only [cohesionLoop]
        rw [htotal2, hfind]
  · intro cats hne hbelow
    have hlen : 0 < cats.length := List.length_pos.mpr hne
    have hlenQ : (0:ℚ) < (cats.length : ℚ) := by exact_mod_cast hlen
    have htotal : ((sampleCounts cats).map Prod.snd).sum = cats.length :=
      sampleCounts_snd_sum cats
    have hnone : (sampleCounts cats).find?
        (fun q => !defaultsSS q.1 && decide ((4 : ℚ)/5 ≤ (q.2 : ℚ)/((cats.length : ℕ) : ℚ)))
        = none := by
      rw [List.find?_eq_none]
      rintro ⟨d', n'⟩ hy
      obtain ⟨d'', hd'', heq⟩ := List.mem_map.mp hy
      injection heq with h1 h2
      subst h1
      subst h2
      simp only [Bool.and_eq_true, Bool.not_eq_true', decide_eq_true_eq, not_and]
      intro hdef'
      have := hbelow d'' (mem_firstOccur.mp hd'') hdef'
      exact not_le.mpr this
    rcases hfo : firstOccur cats with _ | ⟨d, ds⟩
    · obtain ⟨a, as, rfl⟩ : ∃ a as, cats = a :: as := by
        cases cats with
        | nil => exact absurd rfl hne
        | cons a as => exact ⟨a, as, rfl⟩
      have : a ∈ firstOccur (a :: as) := mem_firstOccur.mpr (List.mem_cons_self a as)
      rw [hfo] at this
      cases this
    rcases ds with _ | ⟨e, es⟩
    · have hsc : sampleCounts cats = [(d, cats.count d)] := by
        simp only [sampleCounts, hfo, List.map_cons, List.map_nil]
      have hdm : d ∈ cats := mem_firstOccur.mp (by rw [hfo]; exact List.mem_cons_self d [])
      by_cases hdefd : defaultsSS d = false
      · exfalso
        have hall : ∀ x ∈ cats, x = d := fun x hx => by
          have hxm := mem_firstOccur.mpr hx
          rw [hfo] at hxm
          simpa using hxm
        have hcl : cats.count d = cats.length :=
          List.count_eq_length.mpr (fun b hb => (hall b hb).symm)
        have := hbelow d hdm hdefd
        rw [hcl, div_self (ne_of_gt hlenQ)] at this
        norm_num at this
      · have hdefd' : defaultsSS d = true := by
          cases hd : defaultsSS d
          · exact absurd hd hdefd
          · rfl
        cases cats with
        | nil => exact absurd rfl hne
        | cons a as =>
          have htotal2 := htotal
          rw [hsc] at htotal2 hnone
          simp only [cohesionOfSample, List.isEmpty_cons, Bool.false_eq_true, if_false, hsc]
          rw [if_neg (by simp [hdefd'])]
          simp only [cohesionLoop]
          rw [htotal2, hnone]
    · have hsc : sampleCounts cats
          = (d, cats.count d) :: (e, cats.count e) :: es.map (fun x => (x, cats.count x)) := by
        simp only [sampleCounts, hfo, List.map_cons]
      cases cats with
      | nil => exact absurd rfl hne
      | cons a as =>
        have htotal2 := htotal
        rw [hsc] at htotal2 hnone
        simp only [cohesionOfSample, List.isEmpty_cons, Bool.false_eq_true, if_false, hsc]
        simp only [cohesionLoop]
        rw [htotal2, hnone]

theorem c5_witness :
    cohesionOfSample ["A", "A", "A", "A", "B"] = some ("A", 4/5) ∧
    cohesionOfSample ["A", "B", "C", "unsorted", "unsorted"] = none := by
  have h4 : (["A", "A", "A", "A", "B"] : List String).count "A" = 4 := by decide
  constructor
  · have h := c5_cohesion.1 ["A", "A", "A", "A", "B"] "A" (by decide) (by decide)
      (by rw [h4]; norm_num)
    rw [h4] at h
    norm_num at h
    exact h
  · exact c5_cohesion.2 ["A", "B", "C", "unsorted", "unsorted"] (by decide)
      (by
        intro c hc hdef
        simp only [List.mem_cons, List.not_mem_nil, or_false] at hc
        rcases hc with rfl | rfl | rfl | rfl | rfl
        · have h1 : (["A", "B", "C", "unsorted", "unsorted"] : List String).count "A" = 1 := by
            decide
          rw [h1]
          norm_num
        · have h1 : (["A", "B", "C", "unsorted", "unsorted"] : List String).count "B" = 1 := by
            decide
          rw [h1]
          norm_num
        · have h1 : (["A", "B", "C", "unsorted", "unsorted"] : List String).count "C" = 1 := by
            decide
          rw [h1]
          norm_num
        · exact absurd hdef (by decide)
        · exact absurd hdef (by decide))

/-- C8: (1) no eligible session exists exactly when every ledger entry is
already undone, and then undo is a no-op returning 0; (2) otherwise the
targeted session is that of the most recent non-undone entry — every entry
after it is already undone — and after the undo every entry of that session
is marked undone, whether or not its destination still existed (the marking
is independent of the filesystem). -/
theorem c8_undo_last_session (fs : FS) (log : List Entry) :
    (getLastSession log = none ↔ ∀ t ∈ log, t.undone = true) ∧
    (getLastSession log = none → undoLastSession fs log = ⟨fs, log, 0⟩) ∧
    (∀ sid, getLastSession log = some sid →
      (∃ l₁ t l₂, log = l₁ ++ t :: l₂ ∧ t.undone = false ∧ t.session = sid ∧
        ∀ u ∈ l₂, u.undone = true) ∧
      (∀ t ∈ (undoLastSession fs log).log, t.session = sid → t.undone = true)) := by
  refine ⟨?_, ?_, ?_⟩
  · simp [getLastSession, List.find?_eq_none]
  · intro h
    simp [undoLastSession, h]
  · intro sid hsid
    have hfind : ∃ t, log.reverse.find? (fun t => !t.undone) = some t ∧ t.session = sid := by
      simpa [getLastSession, Option.map_eq_some'] using hsid
    obtain ⟨t, hft, hts⟩ := hfind
    constructor
    · rw [List.find?_eq_some] at hft
      obtain ⟨hpt, as, bs, hrev, has⟩ := hft
      refine ⟨bs.reverse, t, as.reverse, ?_, by simpa using hpt, hts, ?_⟩
      · have := congrArg List.reverse hrev
        simpa [List.reverse_append] using this
      · intro u hu
        have := has u (List.mem_reverse.mp hu)
        simpa using this
    · intro u hu hus
      have hlog : (undoLastSession fs log).log = markUndone log sid := by
        simp [undoLastSession, hsid]
      rw [hlog] at hu
      simp only [markUndone, List.mem_map] at hu
      obtain ⟨v, hv, hveq⟩ := hu
      by_cases hcond : v.session = sid ∧ v.undone = false
      · rw [if_pos hcond] at hveq
        rw [← hveq]
      · rw [if_neg hcond] at hveq
        subst hveq
        rcases Bool.eq_false_or_eq_true v.undone with ht | hf
        · exact ht
        · exact absurd ⟨hus, hf⟩ hcond

def fsC8 : FS := ⟨[(["dst", "x.txt"], 3)], [["dst"]]⟩

/-- A ledger with an already-undone session `s1` followed by a live session
`s2`. -/
def logC8 : List Entry :=
  [{ session := "s1", source := ["a"], destination := ["b"], category := "documents",
     undone := true },
   { session := "s2", source := ["src", "x.txt"], destination := ["dst", "x.txt"],
     category := "documents", undone := false }]

theorem c8_witness :
    (∃ l₁ t l₂, logC8 = l₁ ++ t :: l₂ ∧ t.undone = false ∧ t.session = "s2" ∧
      ∀ u ∈ l₂, u.undone = true) ∧
    (∀ t ∈ (undoLastSession fsC8 logC8).log, t.session = "s2" → t.undone = true) :=
  (c8_undo_last_session fsC8 logC8).2.2 "s2" (by decide)

theorem pathLE_length {a b : FPath} (h : pathLE a b = true) : a.length ≤ b.length := by
  rw [pathLE_iff] at h
  obtain ⟨q, rfl⟩ := h
  simp

theorem pathLE_dropLast (p : FPath) : pathLE p.dropLast p = true := by
  induction p with
  | nil => rfl
  | cons a as ih =>
    cases as with
    | nil => rfl
    | cons b bs => simp [pathLE, List.dropLast_cons₂, ih]

theorem containsL_iff {α : Type} [BEq α] [LawfulBEq α] (L : List α) (x : α) :
    L.contains x = true ↔ x ∈ L := by
  induction L with
  | nil => simp
  | cons a L ih => simp

theorem mkdirsAux_ok (rest : List String) :
    ∀ (fs : FS) (done : FPath),
      (∀ pre : FPath, pathLE done pre = true → pathLE pre (done ++ rest) = true →
        pre ≠ done → alookup fs.items pre = none) →
      (mkdirsAux fs done rest).2 = true := by
  induction rest with
  | nil => intro fs done h; rfl
  | cons c cs ih =>
    intro fs done h
    have hpre : alookup fs.items (done ++ [c]) = none := by
      apply h
      · exact pathLE_append done [c]
      · have : done ++ [c] ++ cs = done ++ (c :: cs) := by simp
        rw [← this]
        exact pathLE_append _ _
      · intro hde
        have := congrArg List.length hde
        simp at this
    have htrans : ∀ pre : FPath, pathLE (done ++ [c]) pre = true →
        pathLE pre ((done ++ [c]) ++ cs) = true → pre ≠ done ++ [c] →
        alookup fs.items pre = none := by
      intro pre h1 h2 h3
      apply h pre (pathLE_trans (pathLE_append done [c]) h1)
      · have : done ++ [c] ++ cs = done ++ (c :: cs) := by simp
        rw [← this]
        exact h2
      · intro hd
        subst hd
        have := pathLE_length h1
        simp at this
    simp only [mkdirsAux, hpre, Option.isSome_none, Bool.false_eq_true, if_false]
    by_cases hmem : fs.dirs.contains (done ++ [c]) = true
    · rw [if_pos hmem]
      exact ih fs (done ++ [c]) htrans
    · rw [if_neg hmem]
      exact ih { fs with dirs := (done ++ [c]) :: fs.dirs } (done ++ [c]) htrans

theorem makedirs_ok (fs : FS) (p : FPath)
    (h : ∀ pre : FPath, pathLE pre p = true → pre ≠ [] → alookup fs.items pre = none) :
    (makedirs fs p).2 = true := by
  apply mkdirsAux_ok
  intro pre h1 h2 h3
  exact h pre (by simpa using h2) h3

/-- Preconditions for the undo loop over the moves `M` of one session,
describing the no-interference state after execution: distinct destinations
that are items exactly when they exist, sources in a disjoint part of the
tree, no directory or ancestor item blocking a source. -/
structure UndoPre (fs : FS) (M : List Entry) : Prop where
  src_pairwise : (M.map (·.source)).Pairwise
    (fun a b => ¬ pathLE a b = true ∧ ¬ pathLE b a = true)
  dst_nodup : (M.map (·.destination)).Nodup
  dst_not_le_src : ∀ e ∈ M, ∀ e' ∈ M, ¬ pathLE e'.destination e.source = true
  src_not_dir : ∀ e ∈ M, ¬ fs.dirs.contains e.source = true
  src_anc_clean : ∀ e ∈ M, ∀ pr ∈ fs.items, pathLE pr.1 e.source = true → pr.1 = e.source
  dst_item_iff : ∀ e ∈ M, fs.pexists e.destination = (alookup fs.items e.destination).isSome

theorem undoFold_count_shift :
    ∀ (M : List Entry) (fs : FS) (n : Nat),
      M.foldl (fun acc e =>
          ((undoEntry acc.1 e).1, if (undoEntry acc.1 e).2 then acc.2 + 1 else acc.2)) (fs, n)
        = ((undoFold fs M).1, n + (undoFold fs M).2) := by
  intro M
  induction M with
  | nil => intro fs n; simp [undoFold]
  | cons e M ih =>
    intro fs n
    simp only [List.foldl_cons, undoFold]
    rw [ih, ih]
    cases hb : (undoEntry fs e).2 <;> simp [hb] <;> try omega

theorem undoFold_cons (fs : FS) (e : Entry) (M : List Entry) :
    undoFold fs (e :: M)
      = ((undoFold (undoEntry fs e).1 M).1,
         (if (undoEntry fs e).2 then 1 else 0) + (undoFold (undoEntry fs e).1 M).2) := by
  show (e :: M).foldl _ (fs, 0) = _
  simp only [List.foldl_cons]
  rw [undoFold_count_shift]

theorem undoEntry_missing (fs : FS) (e : Entry) (h : fs.pexists e.destination = false) :
    undoEntry fs e = (fs, false) := by
  simp [undoEntry, h]

theorem undoEntry_present (fs : FS) (e : Entry) (it : Item)
    (hlook : alookup fs.items e.destination = some it)
    (hnodir : ¬ fs.dirs.contains e.source = true)
    (hanc : ∀ pr ∈ fs.items, pathLE pr.1 e.source = true → pr.1 = e.source) :
    undoEntry fs e
      = ((((makedirs fs e.source.dropLast).1.eraseItem e.destination).putItem e.source it),
         true) := by
  have hpe : fs.pexists e.destination = true := by
    simp [FS.pexists, hlook]
  have hmkok : (makedirs fs e.source.dropLast).2 = true := by
    apply makedirs_ok
    intro pre hle hne
    cases hl : alookup fs.items pre with
    | none => rfl
    | some v =>
      exfalso
      have hmem := alookup_mem hl
      have hp2 : pathLE pre e.source = true := pathLE_trans hle (pathLE_dropLast e.source)
      have hps : pre = e.source := hanc (pre, v) hmem hp2
      subst hps
      cases hsrc : e.source with
      | nil => exact hne hsrc
      | cons a as =>
        rw [hsrc] at hle
        have hlen := pathLE_length hle
        rw [List.length_dropLast] at hlen
        simp at hlen
  have hmeq : makedirs fs e.source.dropLast = ((makedirs fs e.source.dropLast).1, true) := by
    rw [← hmkok]
  have hl1 : alookup (makedirs fs e.source.dropLast).1.items e.destination = some it := by
    rw [makedirs_items]
    exact hlook
  have hd1 : ¬ (makedirs fs e.source.dropLast).1.dirs.contains e.source = true := by
    intro hc
    have hmem := (containsL_iff _ _).mp hc
    rcases makedirs_dirs_mem fs e.source.dropLast hmem with h | ⟨h1, h2⟩
    · exact hnodir ((containsL_iff _ _).mpr h)
    · cases hsrc : e.source with
      | nil => exact h2 hsrc
      | cons a as =>
        rw [hsrc] at h1
        have hlen := pathLE_length h1
        rw [List.length_dropLast] at hlen
        simp at hlen
  rw [undoEntry, if_pos hpe, hmeq]
  simp only [hl1, hd1, Bool.false_eq_true, if_false]

theorem UndoPre.tail {fs : FS} {e : Entry} {M : List Entry} (h : UndoPre fs (e :: M)) :
    UndoPre fs M := by
  refine ⟨?_, ?_, ?_, ?_, ?_, ?_⟩
  · have := h.src_pairwise
    rw [List.map_cons, List.pairwise_cons] at this
    exact this.2
  · have := h.dst_nodup
    rw [List.map_cons, List.nodup_cons] at this
    exact this.2
  · intro a ha b hb
    exact h.dst_not_le_src a (List.mem_cons_of_mem _ ha) b (List.mem_cons_of_mem _ hb)
  · intro a ha
    exact h.src_not_dir a (List.mem_cons_of_mem _ ha)
  · intro a ha
    exact h.src_anc_clean a (List.mem_cons_of_mem _ ha)
  · intro a ha
    exact h.dst_item_iff a (List.mem_cons_of_mem _ ha)

theorem undoFold_spec :
    ∀ (M : List Entry) (fs : FS), UndoPre fs M →
      (undoFold fs M).2 = (M.filter (fun e => fs.pexists e.destination)).length ∧
      (∀ e ∈ M, fs.pexists e.destination = true →
        alookup (undoFold fs M).1.items e.source = alookup fs.items e.destination) ∧
      (∀ p : FPath, (∀ e ∈ M, p ≠ e.source ∧ p ≠ e.destination) →
        alookup (undoFold fs M).1.items p = alookup fs.items p) := by
  intro M
  induction M with
  | nil =>
    intro fs _
    exact ⟨rfl, by simp, fun p _ => rfl⟩
  | cons e M ih =>
    intro fs hpre
    by_cases hpe : fs.pexists e.destination = true
    · have hiff := hpre.dst_item_iff e (List.mem_cons_self e M)
      have hsome : (alookup fs.items e.destination).isSome = true := by
        rw [← hiff]
        exact hpe
      obtain ⟨it, hlook⟩ := Option.isSome_iff_exists.mp hsome
      have hnodir := hpre.src_not_dir e (List.mem_cons_self e M)
      have hanc := hpre.src_anc_clean e (List.mem_cons_self e M)
      have hstep := undoEntry_present fs e it hlook hnodir hanc
      have hpw := hpre.src_pairwise
      rw [List.map_cons, List.pairwise_cons] at hpw
      obtain ⟨hpw_head, hpw_tail⟩ := hpw
      have hnd := hpre.dst_nodup
      rw [List.map_cons, List.nodup_cons] at hnd
      obtain ⟨hnd_head, hnd_tail⟩ := hnd
      have hsrc_ne : ∀ e' ∈ M, e'.source ≠ e.source ∧ ¬ pathLE e'.source e.source = true := by
        intro e' he'
        have hh := hpw_head e'.source (List.mem_map_of_mem _ he')
        exact ⟨fun h0 => hh.2 (by rw [h0]; exact pathLE_refl _), hh.2⟩
      have hdst_ne_src : ∀ e' ∈ M, e.source ≠ e'.destination := by
        intro e' he' h0
        exact hpre.dst_not_le_src e (List.mem_cons_self e M) e' (List.mem_cons_of_mem _ he')
          (by rw [← h0]; exact pathLE_refl _)
      have hdst_ne : ∀ e' ∈ M, e'.destination ≠ e.destination := by
        intro e' he' h0
        exact hnd_head (by rw [← h0]; exact List.mem_map_of_mem _ he')
      have hdirs_new : ∀ d ∈ (makedirs fs e.source.dropLast).1.dirs,
          d ∈ fs.dirs ∨ pathLE d e.source = true := by
        intro d hd
        rcases makedirs_dirs_mem fs e.source.dropLast hd with h | ⟨h1, h2⟩
        · exact Or.inl h
        · exact Or.inr (pathLE_trans h1 (pathLE_dropLast _))
      have hlk2 : ∀ q : FPath, q ≠ e.source → q ≠ e.destination →
          alookup ((((makedirs fs e.source.dropLast).1.eraseItem e.destination).putItem
            e.source it)).items q = alookup fs.items q := by
        intro q h1 h2
        rw [putItem_lookup, if_neg h1, eraseItem_lookup, if_neg h2, makedirs_items]
      have hlk2src : alookup ((((makedirs fs e.source.dropLast).1.eraseItem
          e.destination).putItem e.source it)).items e.source = some it := by
        rw [putItem_lookup, if_pos rfl]
      have hcont2 : ∀ e' ∈ M,
          ((((makedirs fs e.source.dropLast).1.eraseItem e.destination).putItem
            e.source it)).dirs.contains e'.destination
          = fs.dirs.contains e'.destination := by
        intro e' he'
        show (makedirs fs e.source.dropLast).1.dirs.contains e'.destination
          = fs.dirs.contains e'.destination
        cases hcc : fs.dirs.contains e'.destination with
        | true =>
          have hmem := (containsL_iff _ _).mp hcc
          exact (containsL_iff _ _).mpr (mkdirsAux_dirs_super fs [] e.source.dropLast hmem)
        | false =>
          cases hcc2 : (makedirs fs e.source.dropLast).1.dirs.contains e'.destination with
          | true =>
            exfalso
            have hmem := (containsL_iff _ _).mp hcc2
            rcases hdirs_new e'.destination hmem with h | h
            · rw [(containsL_iff _ _).mpr h] at hcc
              cases hcc
            · exact hpre.dst_not_le_src e (List.mem_cons_self e M) e'
                (List.mem_cons_of_mem _ he') h
          | false => rfl
      have hpe2 : ∀ e' ∈ M,
          ((((makedirs fs e.source.dropLast).1.eraseItem e.destination).putItem
            e.source it)).pexists e'.destination = fs.pexists e'.destination := by
        intro e' he'
        rw [FS.pexists, FS.pexists,
          hlk2 e'.destination (fun hh => hdst_ne_src e' he' hh.symm) (hdst_ne e' he'),
          hcont2 e' he']
      have hpre2 : UndoPre
          ((((makedirs fs e.source.dropLast).1.eraseItem e.destination).putItem e.source it))
          M := by
        refine ⟨hpw_tail, hnd_tail, ?_, ?_, ?_, ?_⟩
        · intro a ha b hb
          exact hpre.dst_not_le_src a (List.mem_cons_of_mem _ ha) b (List.mem_cons_of_mem _ hb)
        · intro e' he' hc
          have hmem := (containsL_iff _ _).mp hc
          rcases hdirs_new e'.source hmem with h | h
          · exact hpre.src_not_dir e' (List.mem_cons_of_mem _ he') ((containsL_iff _ _).mpr h)
          · exact (hsrc_ne e' he').2 h
        · intro e' he' pr hpr hple
          rcases mem_putItem_items hpr with rfl | ⟨hpr1, hpr2⟩
          · exfalso
            exact (hpw_head e'.source (List.mem_map_of_mem _ he')).1 hple
          · have hpr1' := mem_eraseItem_items hpr1
            have hprfs : pr ∈ fs.items := by
              rw [← makedirs_items fs e.source.dropLast]
              exact hpr1'.1
            exact hpre.src_anc_clean e' (List.mem_cons_of_mem _ he') pr hprfs hple
        · intro e' he'
          rw [FS.pexists,
            hlk2 e'.destination (fun hh => hdst_ne_src e' he' hh.symm) (hdst_ne e' he'),
            hcont2 e' he']
          have hh := hpre.dst_item_iff e' (List.mem_cons_of_mem _ he')
          rw [FS.pexists] at hh
          rw [hh]
      obtain ⟨ihc, ihr, ihf⟩ := ih _ hpre2
      rw [undoFold_cons, hstep]
      refine ⟨?_, ?_, ?_⟩
      · simp only [List.filter_cons, hpe, if_pos trivial, List.length_cons]
        rw [ihc]
        have hfeq : M.filter (fun e' =>
              ((((makedirs fs e.source.dropLast).1.eraseItem e.destination).putItem
                e.source it)).pexists e'.destination)
            = M.filter (fun e' => fs.pexists e'.destination) :=
          List.filter_congr (fun e' he' => by rw [hpe2 e' he'])
        rw [hfeq]
        omega
      · intro e' he' hpd
        rcases List.mem_cons.mp he' with rfl | he'
        · rw [ihf e'.source (fun a ha =>
            ⟨fun hh => (hsrc_ne a ha).1 hh.symm, hdst_ne_src a ha⟩)]
          rw [hlk2src, hlook]
        · rw [ihr e' he' (by rw [hpe2 e' he']; exact hpd)]
          exact hlk2 e'.destination (fun hh => hdst_ne_src e' he' hh.symm) (hdst_ne e' he')
      · intro p hp
        rw [ihf p (fun a ha => hp a (List.mem_cons_of_mem _ ha))]
        exact hlk2 p (hp e (List.mem_cons_self e M)).1 (hp e (List.mem_cons_self e M)).2
    · have hpef : fs.pexists e.destination = false := by
        cases h : fs.pexists e.destination
        · rfl
        · exact absurd h hpe
      have hstep := undoEntry_missing fs e hpef
      obtain ⟨ihc, ihr, ihf⟩ := ih fs hpre.tail
      rw [undoFold_cons, hstep]
      refine ⟨?_, ?_, ?_⟩
      · simp only [List.filter_cons, hpef, Bool.false_eq_true, if_false]
        rw [ihc]
        omega
      · intro e' he' hpd
        rcases List.mem_cons.mp he' with rfl | he'
        · exact absurd hpd hpe
        · exact ihr e' he' hpd
      · intro p hp
        exact ihf p (fun a ha => hp a (List.mem_cons_of_mem _ ha))

/-- Invariant tying the executor's state to the initial filesystem `fs₀`:
each logged move's destination holds exactly the item that originally sat at
its source, destinations are distinct paths under the destination root,
sources live outside it and are vacated, and directory/item growth stays
inside the destination tree. -/
structure ExecInv (fs0 : FS) (destRoot : FPath) (sid : String) (st : ExecState) : Prop where
  entry_val : ∀ e ∈ st.log, ∃ v, alookup fs0.items e.source = some v ∧
    alookup st.fs.items e.destination = some v
  dst_nodup : (st.log.map (·.destination)).Nodup
  dst_under : ∀ e ∈ st.log, pathLE destRoot e.destination = true
  src_ok : ∀ e ∈ st.log, ¬ pathLE destRoot e.source = true ∧ ¬ pathLE e.source destRoot = true
  frame : ∀ p : FPath, ¬ pathLE destRoot p = true →
    alookup st.fs.items p
      = (if p ∈ st.log.map (·.source) then none else alookup fs0.items p)
  dirs_ok : ∀ d ∈ st.fs.dirs,
    d ∈ fs0.dirs ∨ pathLE d destRoot = true ∨ pathLE destRoot d = true
  items_mem : ∀ pr ∈ st.fs.items, pr ∈ fs0.items ∨ pathLE destRoot pr.1 = true
  sess : ∀ e ∈ st.log, e.session = sid ∧ e.undone = false
  anc : ∀ e ∈ st.log, ∀ pr ∈ fs0.items, pathLE pr.1 e.source = true → pr.1 = e.source
  src_pw : (st.log.map (·.source)).Pairwise
    (fun a b => ¬ pathLE a b = true ∧ ¬ pathLE b a = true)

/-- Preconditions on a single move request: destination folder in the
destination tree, source outside it, source item present with no item at a
proper ancestor. -/
structure ReqPre (fs0 : FS) (destRoot : FPath) (req : MoveReq) : Prop where
  dest_under : pathLE destRoot req.destFolder = true
  src_out : ¬ pathLE destRoot req.src = true
  src_no_anc : ¬ pathLE req.src destRoot = true
  present : (alookup fs0.items req.src).isSome = true
  anc : ∀ pr ∈ fs0.items, pathLE pr.1 req.src = true → pr.1 = req.src

theorem execInv_mkdirs (fs0 : FS) (destRoot : FPath) (sid : String) (st : ExecState)
    (dest : FPath) (hdest : pathLE destRoot dest = true)
    (hinv : ExecInv fs0 destRoot sid st) :
    ExecInv fs0 destRoot sid ⟨(makedirs st.fs dest).1, st.log⟩ := by
  refine ⟨?_, hinv.dst_nodup, hinv.dst_under, hinv.src_ok, ?_, ?_, ?_, hinv.sess, hinv.anc,
    hinv.src_pw⟩
  · intro e he
    obtain ⟨v, h1, h2⟩ := hinv.entry_val e he
    exact ⟨v, h1, by rw [makedirs_items]; exact h2⟩
  · intro p hp
    show alookup (makedirs st.fs dest).1.items p = _
    rw [makedirs_items]
    exact hinv.frame p hp
  · intro d hd
    rcases makedirs_dirs_mem st.fs dest hd with h | ⟨h1, h2⟩
    · exact hinv.dirs_ok d h
    · rcases pathLE_total_of_le h1 hdest with h | h
      · exact Or.inr (Or.inl h)
      · exact Or.inr (Or.inr h)
  · intro pr hpr
    have : pr ∈ st.fs.items := by
      rw [← makedirs_items st.fs dest]
      exact hpr
    exact hinv.items_mem pr this

theorem execMoveCore_inv (fs0 : FS) (destRoot : FPath) (sid : String) (log : List Entry)
    (req : MoveReq) (fs1 : FS)
    (hinv : ExecInv fs0 destRoot sid ⟨fs1, log⟩)
    (hreq : ReqPre fs0 destRoot req)
    (hpw : ((log.map (·.source)) ++ [req.src]).Pairwise
      (fun a b => ¬ pathLE a b = true ∧ ¬ pathLE b a = true)) :
    ExecInv fs0 destRoot sid (execMoveCore sid log req fs1) ∧
    ((execMoveCore sid log req fs1).log = log ∨
      ∃ en : Entry, en.source = req.src ∧ (execMoveCore sid log req fs1).log = log ++ [en]) := by
  rw [execMoveCore]
  by_cases hdir : fs1.dirs.contains req.destFolder = true
  · rw [if_pos hdir]
    cases hcd : chooseDest fs1 req with
    | none => exact ⟨hinv, Or.inl rfl⟩
    | some dest =>
      cases hlk : alookup fs1.items req.src with
      | none => exact ⟨hinv, Or.inl rfl⟩
      | some it =>
        have hfree := chooseDest_free fs1 req dest hcd
        obtain ⟨nm, hdsh⟩ := chooseDest_shape fs1 req dest hcd
        have hdu : pathLE destRoot dest = true := by
          rw [hdsh]
          exact pathLE_trans hreq.dest_under (pathLE_append _ _)
        have hsrc_notin : req.src ∉ log.map (·.source) := by
          intro hmem
          rcases List.pairwise_append.mp hpw with ⟨_, _, hrel⟩
          have := hrel req.src hmem req.src (List.mem_singleton_self _)
          exact this.1 (pathLE_refl _)
        have hdest_ne_olddest : ∀ e ∈ log, dest ≠ e.destination := by
          intro e he h0
          obtain ⟨v, _, h2⟩ := hinv.entry_val e he
          rw [← h0] at h2
          rw [FS.pexists, h2] at hfree
          simp at hfree
        have hsrc_ne_olddest : ∀ e ∈ log, req.src ≠ e.destination := by
          intro e he h0
          exact hreq.src_out (h0 ▸ hinv.dst_under e he)
        have hfs0src : alookup fs0.items req.src = some it := by
          have := hinv.frame req.src hreq.src_out
          rw [if_neg hsrc_notin] at this
          rw [← this, hlk]
        refine ⟨⟨?_, ?_, ?_, ?_, ?_, ?_, ?_, ?_, ?_, ?_⟩, Or.inr ⟨_, rfl, rfl⟩⟩
        · intro e he
          rcases List.mem_append.mp he with he | he
          · obtain ⟨v, h1, h2⟩ := hinv.entry_val e he
            refine ⟨v, h1, ?_⟩
            rw [putItem_lookup, if_neg (fun h0 => hdest_ne_olddest e he h0.symm),
              eraseItem_lookup, if_neg (fun h0 => hsrc_ne_olddest e he h0.symm)]
            exact h2
          · rcases List.mem_singleton.mp he with rfl
            refine ⟨it, hfs0src, ?_⟩
            rw [putItem_lookup, if_pos rfl]
        · rw [List.map_append]
          rw [List.nodup_append]
          refine ⟨hinv.dst_nodup, by simp, ?_⟩
          intro d hd hd2
          simp only [List.map_cons, List.map_nil, List.mem_singleton] at hd2
          obtain ⟨e, he, rfl⟩ := List.mem_map.mp hd
          exact hdest_ne_olddest e he (by rw [hd2])
        · intro e he
          rcases List.mem_append.mp he with he | he
          · exact hinv.dst_under e he
          · rcases List.mem_singleton.mp he with rfl
            exact hdu
        · intro e he
          rcases List.mem_append.mp he with he | he
          · exact hinv.src_ok e he
          · rcases List.mem_singleton.mp he with rfl
            exact ⟨hreq.src_out, hreq.src_no_anc⟩
        · intro p hp
          have hpne_dest : p ≠ dest := fun h0 => hp (h0 ▸ hdu)
          rw [putItem_lookup, if_neg hpne_dest, eraseItem_lookup]
          rw [List.map_append, List.map_cons, List.map_nil]
          by_cases hps : p = req.src
          · subst hps
            rw [if_pos rfl, if_pos (by simp)]
          · rw [if_neg hps]
            have := hinv.frame p hp
            rw [this]
            by_cases hmem : p ∈ log.map (·.source)
            · rw [if_pos hmem, if_pos (by simp [hmem])]
            · rw [if_neg hmem, if_neg (by simp [hmem, hps])]
        · intro d hd
          exact hinv.dirs_ok d hd
        · intro pr hpr
          rcases mem_putItem_items hpr with rfl | ⟨h1, _⟩
          · exact Or.inr hdu
          · exact hinv.items_mem pr (mem_eraseItem_items h1).1
        · intro e he
          rcases List.mem_append.mp he with he | he
          · exact hinv.sess e he
          · rcases List.mem_singleton.mp he with rfl
            exact ⟨rfl, rfl⟩
        · intro e he
          rcases List.mem_append.mp he with he | he
          · exact hinv.anc e he
          · rcases List.mem_singleton.mp he with rfl
            exact hreq.anc
        · rw [List.map_append]
          exact hpw
  · rw [if_neg hdir]
    exact ⟨hinv, Or.inl rfl⟩

theorem execOne_inv (fs0 : FS) (destRoot : FPath) (sid : String) (st : ExecState)
    (b : Bool) (req : MoveReq)
    (hinv : ExecInv fs0 destRoot sid st)
    (hreq : ReqPre fs0 destRoot req)
    (hpw : ((st.log.map (·.source)) ++ [req.src]).Pairwise
      (fun a b => ¬ pathLE a b = true ∧ ¬ pathLE b a = true)) :
    ExecInv fs0 destRoot sid (execOne sid b st req) ∧
    ((execOne sid b st req).log = st.log ∨
      ∃ en : Entry, en.source = req.src ∧ (execOne sid b st req).log = st.log ++ [en]) := by
  cases b with
  | false =>
    have h := execMoveCore_inv fs0 destRoot sid st.log req st.fs hinv hreq hpw
    simpa [execOne] using h
  | true =>
    rcases hm : makedirs st.fs req.destFolder with ⟨fs1, ok⟩
    have hinv1 : ExecInv fs0 destRoot sid ⟨fs1, st.log⟩ := by
      have h := execInv_mkdirs fs0 destRoot sid st req.destFolder hreq.dest_under hinv
      rw [hm] at h
      exact h
    cases ok with
    | true =>
      have h := execMoveCore_inv fs0 destRoot sid st.log req fs1 hinv1 hreq hpw
      simpa [execOne, hm] using h
    | false =>
      constructor
      · show ExecInv fs0 destRoot sid (execOne sid true st req)
        simp only [execOne, if_pos rfl, hm]
        exact hinv1
      · left
        simp [execOne, hm]

theorem execMoves_inv (fs0 : FS) (destRoot : FPath) (sid : String) :
    ∀ (reqs : List (Bool × MoveReq)) (st : ExecState),
      ExecInv fs0 destRoot sid st →
      (∀ br ∈ reqs, ReqPre fs0 destRoot br.2) →
      ((st.log.map (·.source) ++ reqs.map (·.2.src)).Pairwise
        (fun a b => ¬ pathLE a b = true ∧ ¬ pathLE b a = true)) →
      ExecInv fs0 destRoot sid (execMoves sid st reqs) := by
  intro reqs
  induction reqs with
  | nil =>
    intro st hinv _ _
    exact hinv
  | cons br rest ih =>
    intro st hinv hreqs hpw
    have hpw1 : ((st.log.map (·.source)) ++ [br.2.src]).Pairwise
        (fun a b => ¬ pathLE a b = true ∧ ¬ pathLE b a = true) := by
      apply List.Pairwise.sublist ?_ hpw
      apply List.Sublist.append_left
      exact List.Sublist.cons₂ _ (List.nil_sublist _)
    obtain ⟨hinv1, hlog1⟩ := execOne_inv fs0 destRoot sid st br.1 br.2 hinv
      (hreqs br (List.mem_cons_self br rest)) hpw1
    show ExecInv fs0 destRoot sid (execMoves sid (execOne sid br.1 st br.2) rest)
    apply ih (execOne sid br.1 st br.2) hinv1
      (fun r hr => hreqs r (List.mem_cons_of_mem _ hr))
    rcases hlog1 with h | ⟨en, hsrc, h⟩
    · rw [h]
      apply List.Pairwise.sublist ?_ hpw
      apply List.Sublist.append_left
      exact List.sublist_cons_self _ _
    · rw [h, List.map_append]
      simp only [List.map_cons, List.map_nil, hsrc]
      have heq : (st.log.map (·.source) ++ [br.2.src]) ++ rest.map (·.2.src)
          = st.log.map (·.source) ++ (br.2.src :: rest.map (·.2.src)) := by
        simp
      rw [heq]
      simpa using hpw

theorem getLastSession_uniform (log : List Entry) (sid : String)
    (h : ∀ e ∈ log, e.session = sid ∧ e.undone = false) (hne : log ≠ []) :
    getLastSession log = some sid := by
  cases hrev : log.reverse with
  | nil =>
    exfalso
    apply hne
    simpa using congrArg List.reverse hrev
  | cons t rest =>
    have htmem : t ∈ log := by
      rw [← List.mem_reverse, hrev]
      exact List.mem_cons_self _ _
    have ht := h t htmem
    rw [getLastSession, hrev, List.find?_cons_of_pos _ (by rw [ht.2]; rfl)]
    simp [ht.1]

theorem getSessionMoves_uniform (log : List Entry) (sid : String)
    (h : ∀ e ∈ log, e.session = sid ∧ e.undone = false) :
    getSessionMoves log sid = log := by
  rw [getSessionMoves, List.filter_eq_self]
  intro a ha
  simp [(h a ha).1, (h a ha).2]

theorem execInv_undoPre (fs0 : FS) (destRoot : FPath) (sid : String) (st : ExecState)
    (hwf0 : ∀ d ∈ fs0.dirs, alookup fs0.items d = none)
    (hinv : ExecInv fs0 destRoot sid st) :
    UndoPre st.fs st.log := by
  refine ⟨hinv.src_pw, hinv.dst_nodup, ?_, ?_, ?_, ?_⟩
  · intro e he e' he' hle
    exact (hinv.src_ok e he).1 (pathLE_trans (hinv.dst_under e' he') hle)
  · intro e he hc
    have hmem := (containsL_iff _ _).mp hc
    rcases hinv.dirs_ok e.source hmem with h | h | h
    · obtain ⟨v, hv, _⟩ := hinv.entry_val e he
      rw [hwf0 e.source h] at hv
      cases hv
    · exact (hinv.src_ok e he).2 h
    · exact (hinv.src_ok e he).1 h
  · intro e he pr hpr hple
    rcases hinv.items_mem pr hpr with h | h
    · exact hinv.anc e he pr h hple
    · exact absurd (pathLE_trans h hple) (hinv.src_ok e he).1
  · intro e he
    obtain ⟨v, _, h2⟩ := hinv.entry_val e he
    simp [FS.pexists, h2]

/-- C1: executing a session's move requests and then undoing that session
restores every moved item — file or atomically-moved folder — to its exact
original source path, provided the standard no-interference conditions hold:
destination folders lie under the destination root, sources lie outside it,
are pairwise non-nested, present, and have no item at a proper ancestor, and
no pre-existing directory coincides with an item path.  Every logged move's
source ends up holding exactly the item it originally held. -/
theorem c1_execute_undo_roundtrip
    (fs0 : FS) (destRoot : FPath) (sid : String) (reqs : List (Bool × MoveReq))
    (hwf0 : ∀ d ∈ fs0.dirs, alookup fs0.items d = none)
    (hreqs : ∀ br ∈ reqs, pathLE destRoot br.2.destFolder = true ∧
      ¬ pathLE destRoot br.2.src = true ∧ ¬ pathLE br.2.src destRoot = true ∧
      (alookup fs0.items br.2.src).isSome = true ∧
      (∀ pr ∈ fs0.items, pathLE pr.1 br.2.src = true → pr.1 = br.2.src))
    (hpw : (reqs.map (·.2.src)).Pairwise
      (fun a b => ¬ pathLE a b = true ∧ ¬ pathLE b a = true)) :
    ∀ e ∈ (execMoves sid ⟨fs0, []⟩ reqs).log,
      alookup (undoLastSession (execMoves sid ⟨fs0, []⟩ reqs).fs
          (execMoves sid ⟨fs0, []⟩ reqs).log).fs.items e.source
        = alookup fs0.items e.source ∧
      (alookup fs0.items e.source).isSome = true := by
  have hinv0 : ExecInv fs0 destRoot sid ⟨fs0, []⟩ := by
    refine ⟨?_, ?_, ?_, ?_, ?_, ?_, ?_, ?_, ?_, ?_⟩
    · intro e he; cases he
    · simp
    · intro e he; cases he
    · intro e he; cases he
    · intro p _
      simp
    · intro d hd; exact Or.inl hd
    · intro pr hpr; exact Or.inl hpr
    · intro e he; cases he
    · intro e he; cases he
    · simp
  have hinv := execMoves_inv fs0 destRoot sid reqs ⟨fs0, []⟩ hinv0
    (fun br hbr => ⟨(hreqs br hbr).1, (hreqs br hbr).2.1, (hreqs br hbr).2.2.1,
      (hreqs br hbr).2.2.2.1, (hreqs br hbr).2.2.2.2⟩)
    (by simpa using hpw)
  intro e he
  have hne : (execMoves sid ⟨fs0, []⟩ reqs).log ≠ [] := by
    intro h0
    rw [h0] at he
    cases he
  have hgls := getLastSession_uniform _ sid hinv.sess hne
  have hmoves := getSessionMoves_uniform _ sid hinv.sess
  have hupre := execInv_undoPre fs0 destRoot sid _ hwf0 hinv
  obtain ⟨_, hrest, _⟩ := undoFold_spec (execMoves sid ⟨fs0, []⟩ reqs).log
    (execMoves sid ⟨fs0, []⟩ reqs).fs hupre
  obtain ⟨v, hv0, hv1⟩ := hinv.entry_val e he
  have hpd : (execMoves sid ⟨fs0, []⟩ reqs).fs.pexists e.destination = true := by
    simp [FS.pexists, hv1]
  have hres := hrest e he hpd
  have hundo : (undoLastSession (execMoves sid ⟨fs0, []⟩ reqs).fs
      (execMoves sid ⟨fs0, []⟩ reqs).log).fs
      = (undoFold (execMoves sid ⟨fs0, []⟩ reqs).fs (execMoves sid ⟨fs0, []⟩ reqs).log).1 := by
    simp [undoLastSession, hgls, hmoves]
  refine ⟨?_, ?_⟩
  · rw [hundo, hres, hv1, hv0]
  · rw [hv0]
    rfl

/-- Source and destination for the C1 witness run: two files in `src`, an
empty `dst` tree. -/
def fs0w : FS := ⟨[(["src", "a.txt"], 0), (["src", "b.txt"], 1)], [["dst"], ["src"]]⟩

def reqsw : List (Bool × MoveReq) :=
  [(true, { src := ["src", "a.txt"], destFolder := ["dst", "docs"], name := "a.txt",
            isFolder := false, category := "documents" }),
   (true, { src := ["src", "b.txt"], destFolder := ["dst", "docs"], name := "b.txt",
            isFolder := false, category := "work" })]

theorem c1_witness :
    alookup (undoLastSession (execMoves "s" ⟨fs0w, []⟩ reqsw).fs
        (execMoves "s" ⟨fs0w, []⟩ reqsw).log).fs.items (["src", "a.txt"])
      = alookup fs0w.items (["src", "a.txt"]) ∧
    (alookup fs0w.items (["src", "a.txt"])).isSome = true :=
  c1_execute_undo_roundtrip fs0w ["dst"] "s" reqsw (by decide) (by decide) (by decide)
    { session := "s", source := ["src", "a.txt"], destination := ["dst", "docs", "a.txt"],
      category := "documents", undone := false } (by decide)

theorem markUndone_marks (log : List Entry) (sid : String) :
    ∀ t ∈ markUndone log sid, t.session = sid → t.undone = true := by
  intro t ht hts
  simp only [markUndone, List.mem_map] at ht
  obtain ⟨v, hv, hveq⟩ := ht
  by_cases hcond : v.session = sid ∧ v.undone = false
  · rw [if_pos hcond] at hveq
    rw [← hveq]
  · rw [if_neg hcond] at hveq
    subst hveq
    rcases Bool.eq_false_or_eq_true v.undone with h | h
    · exact h
    · exact absurd ⟨hts, h⟩ hcond

/-- C10: when an eligible session exists and its moves satisfy the
no-interference conditions, the count returned by `undo_last_session` equals
the number of that session's (non-undone) ledger entries whose recorded
destination still exists at undo time; entries with a missing destination are
excluded from the count although the whole session is still marked undone. -/
theorem c10_restored_count (fs : FS) (log : List Entry) (sid : String)
    (hsid : getLastSession log = some sid)
    (hpre : UndoPre fs (getSessionMoves log sid)) :
    (undoLastSession fs log).restored
      = ((getSessionMoves log sid).filter (fun e => fs.pexists e.destination)).length ∧
    (∀ t ∈ (undoLastSession fs log).log, t.session = sid → t.undone = true) := by
  obtain ⟨hc, _, _⟩ := undoFold_spec (getSessionMoves log sid) fs hpre
  constructor
  · have hr : (undoLastSession fs log).restored
        = (undoFold fs (getSessionMoves log sid)).2 := by
      simp [undoLastSession, hsid]
    rw [hr, hc]
  · intro t ht hts
    have hl : (undoLastSession fs log).log = markUndone log sid := by
      simp [undoLastSession, hsid]
    rw [hl] at ht
    exact markUndone_marks log sid t ht hts

def fsC10 : FS := ⟨[(["dst", "a.txt"], 0)], [["dst"], ["src"]]⟩

/-- A session whose first move's destination still exists and whose second
move's destination has gone missing. -/
def logC10 : List Entry :=
  [{ session := "s", source := ["src", "a.txt"], destination := ["dst", "a.txt"],
     category := "documents", undone := false },
   { session := "s", source := ["src", "b.txt"], destination := ["dst", "b.txt"],
     category := "documents", undone := false }]

theorem c10_witness :
    (undoLastSession fsC10 logC10).restored
      = ((getSessionMoves logC10 "s").filter (fun e => fsC10.pexists e.destination)).length :=
  (c10_restored_count fsC10 logC10 "s" (by decide)
    ⟨by decide, by decide, by decide, by decide, by decide, by decide⟩).1
